import Mathlib

/-!
# Verification of the waylon draughts engine (src/engine.cpp)

A shallow embedding of the search engine's data model and operations:
board representation, forced-maximum-capture move generation (including
the recursive multi-jump capture enumerator with flying kings), move
application, static evaluation, the transposition table, move ordering,
the alpha-beta search and the iterative-deepening driver.

Machine integers of the C++ source are modelled as `Int` (no arithmetic
in the engine approaches 32-bit overflow on the inputs of interest);
the 64-square board is a `List Int` of piece codes read and written
through bounds-checked accessors that mirror the C++ index expressions.
-/

set_option maxRecDepth 100000

namespace Waylon

/-! ## Constants (engine.cpp lines 23-33) -/

def TT_SIZE : Nat := 2 ^ 24
def INF : Int := 1000000
def MATE : Int := 900000
def MAX_PLY : Int := 64

def EMPTY : Int := 0
def BLACK_MAN : Int := 1
def WHITE_MAN : Int := 2
def BLACK_KING : Int := 3
def WHITE_KING : Int := 4
def GHOST : Int := 7

/-! ## Board model

The C++ board is `int board[64]`, always indexed by expressions of the
form `r*8+c` or a plain square index.  `bgetI`/`bsetI` perform the read
and write with an explicit bounds guard; every access the engine
performs on inputs reachable from a well-formed call is in bounds, so
the guard never changes a defined C++ behavior. -/

abbrev Board := List Int

def bgetI (b : Board) (i : Int) : Int :=
  if 0 ≤ i ∧ i < 64 then b.getD i.toNat 0 else 0

def bsetI (b : Board) (i v : Int) : Board :=
  if 0 ≤ i ∧ i < 64 then b.set i.toNat v else b

/-- `is_valid` (engine.cpp line 174). -/
def is_valid (r c : Int) : Bool :=
  0 ≤ r && r < 8 && 0 ≤ c && c < 8

/-! ## Step, Move, MoveList (engine.cpp lines 35-55) -/

/-- One diagonal step `(r1,c1) -> (r2,c2)` (engine.cpp line 35). -/
structure Step where
  r1 : Int
  c1 : Int
  r2 : Int
  c2 : Int
deriving DecidableEq, Repr

def step0 : Step := ⟨0, 0, 0, 0⟩

/-- Row direction of a step, `(er > sr) ? 1 : -1` (engine.cpp line 439). -/
def dirR (st : Step) : Int := if st.r1 < st.r2 then 1 else -1

/-- Column direction of a step, `(ec > sc) ? 1 : -1` (engine.cpp line 439). -/
def dirC (st : Step) : Int := if st.c1 < st.c2 then 1 else -1

/-- A move: the C++ `Move` holds a fixed `steps[12]` array plus a
`count`; the live prefix is modelled as a list whose length is the
count.  The `score` field is scratch space for move ordering. -/
structure Move where
  steps : List Step
  score : Int
deriving DecidableEq, Repr

def Move.count (m : Move) : Nat := m.steps.length

def empty_move : Move := ⟨[], 0⟩

/-- `Move::operator==` (engine.cpp lines 40-45): equal iff the step
counts agree and (when nonzero) the first step's source and the last
step's destination agree.  Intermediate steps and `score` are ignored. -/
def move_eq (a b : Move) : Bool :=
  if a.count ≠ b.count then false
  else if a.count = 0 then true
  else
    let sa := a.steps.headD step0
    let sb := b.steps.headD step0
    let ea := a.steps.getLastD step0
    let eb := b.steps.getLastD step0
    sa.r1 = sb.r1 && sa.c1 = sb.c1 && ea.r2 = eb.r2 && ea.c2 = eb.c2

/-- `MoveList::push_back` (engine.cpp line 51): append, but silently
drop the move once the list already holds 128 moves. -/
def push_back (l : List Move) (m : Move) : List Move :=
  if l.length < 128 then l ++ [m] else l

/-! ## Capture enumeration (engine.cpp lines 280-353)

`find_captures_recursive` recurses on the growing chain; the chain
guard `count >= 12` bounds the recursion depth, which the Lean
definition makes structural through a fuel parameter (13 suffices from
an empty chain).  The two `while` loops of the flying-king scan run a
slide distance from 1 upward and stop no later than distance 8 from any
on-board square, so they are modelled with fuel 8.  The inner loop
bodies are factored out, parameterized by the recursive call. -/

/-- Man capture try in one direction (engine.cpp lines 300-315). -/
def man_capture_dir
    (recur : Board → Int → Int → Move → List Move → List Move)
    (board : Board) (r c enemy_man enemy_king piece : Int) (cur : Move)
    (dr dc : Int) (af : List Move × Bool) : List Move × Bool :=
  let nr := r + dr
  let nc := c + dc
  let jr := r + 2*dr
  let jc := c + 2*dc
  if is_valid jr jc then
    let mid := bgetI board (nr*8+nc)
    if (mid = enemy_man ∨ mid = enemy_king) ∧ bgetI board (jr*8+jc) = EMPTY then
      let tb := bsetI (bsetI (bsetI board (r*8+c) EMPTY) (nr*8+nc) GHOST) (jr*8+jc) piece
      let next : Move := ⟨cur.steps ++ [⟨r, c, jr, jc⟩], cur.score⟩
      (recur tb jr jc next af.1, true)
    else af
  else af

/-- Flying-king landing loop (engine.cpp lines 327-344): after the
victim at `(nr,nc)`, try every empty landing square beyond it. -/
def king_land
    (recur : Board → Int → Int → Move → List Move → List Move)
    (board : Board) (r c piece : Int) (cur : Move)
    (nr nc dr dc : Int) :
    Nat → Int → List Move × Bool → List Move × Bool
  | 0, _, af => af
  | fuel+1, ld, af =>
    let jr := nr + ld*dr
    let jc := nc + ld*dc
    if ¬ is_valid jr jc then af
    else if bgetI board (jr*8+jc) ≠ EMPTY then af
    else
      let tb := bsetI (bsetI (bsetI board (r*8+c) EMPTY) (nr*8+nc) GHOST) (jr*8+jc) piece
      let next : Move := ⟨cur.steps ++ [⟨r, c, jr, jc⟩], cur.score⟩
      let acc2 := recur tb jr jc next af.1
      king_land recur board r c piece cur nr nc dr dc fuel (ld+1) (acc2, true)

/-- Flying-king victim scan (engine.cpp lines 317-348): slide outward
until blocked; a first enemy piece with empty squares beyond it yields
captures, then the direction is abandoned. -/
def king_scan
    (recur : Board → Int → Int → Move → List Move → List Move)
    (board : Board) (r c my_man my_king enemy_man enemy_king piece : Int) (cur : Move)
    (dr dc : Int) :
    Nat → Int → List Move × Bool → List Move × Bool
  | 0, _, af => af
  | fuel+1, dist, af =>
    let nr := r + dist*dr
    let nc := c + dist*dc
    if ¬ is_valid nr nc then af
    else
      let p := bgetI board (nr*8+nc)
      if p = my_man ∨ p = my_king ∨ p = GHOST then af
      else if p = enemy_man ∨ p = enemy_king then
        king_land recur board r c piece cur nr nc dr dc 8 1 af
      else
        king_scan recur board r c my_man my_king enemy_man enemy_king piece cur dr dc fuel (dist+1) af

/-- The four-direction loop of `find_captures_recursive`
(engine.cpp lines 294-350), threading the accumulated move list and the
`found_continuation` flag. -/
def capture_dirs
    (recur : Board → Int → Int → Move → List Move → List Move)
    (board : Board) (r c : Int) (piece : Int) (is_king : Bool)
    (my_man my_king enemy_man enemy_king : Int) (cur : Move) :
    List (Int × Int) → List Move × Bool → List Move × Bool
  | [], af => af
  | (dr, dc) :: rest, af =>
    let af2 :=
      if ¬ is_king then
        man_capture_dir recur board r c enemy_man enemy_king piece cur dr dc af
      else
        king_scan recur board r c my_man my_king enemy_man enemy_king piece cur dr dc 8 1 af
    capture_dirs recur board r c piece is_king my_man my_king enemy_man enemy_king cur rest af2

/-- `find_captures_recursive` (engine.cpp lines 280-353). -/
def find_captures_recursive :
    Nat → Board → Int → Int → Int → Move → List Move → List Move
  | 0, _, _, _, _, _, acc => acc
  | fuel+1, board, r, c, piece, cur, acc =>
    if 12 ≤ cur.count then push_back acc cur
    else
      let is_white := piece = WHITE_MAN ∨ piece = WHITE_KING
      let is_king := piece = WHITE_KING ∨ piece = BLACK_KING
      let my_man := if is_white then WHITE_MAN else BLACK_MAN
      let my_king := if is_white then WHITE_KING else BLACK_KING
      let enemy_man := if is_white then BLACK_MAN else WHITE_MAN
      let enemy_king := if is_white then BLACK_KING else WHITE_KING
      let af := capture_dirs
        (fun b r' c' m a => find_captures_recursive fuel b r' c' piece m a)
        board r c piece is_king
        my_man my_king enemy_man enemy_king cur
        [(-1, -1), (-1, 1), (1, -1), (1, 1)] (acc, false)
      if ¬ af.2 ∧ 0 < cur.count then push_back af.1 cur else af.1

/-! ## Move generation (engine.cpp lines 355-401) -/

/-- The capture-enumeration phase of `generate_moves`
(engine.cpp lines 361-366): run the enumerator from every own piece in
square order. -/
def capture_phase (board : Board) (player : Int) : List Move :=
  let is_white := player = WHITE_MAN ∨ player = WHITE_KING
  let my_man := if is_white then WHITE_MAN else BLACK_MAN
  let my_king := if is_white then WHITE_KING else BLACK_KING
  (List.range 64).foldl
    (fun acc i =>
      if board.getD i 0 = my_man ∨ board.getD i 0 = my_king then
        find_captures_recursive 13 board ((i : Int) / 8) ((i : Int) % 8)
          (board.getD i 0) empty_move acc
      else acc)
    []

/-- One quiet man candidate (engine.cpp lines 382-385). -/
def man_step (board : Board) (r c nr nc : Int) : List Move :=
  if is_valid nr nc ∧ bgetI board (nr*8+nc) = EMPTY then
    [⟨[⟨r, c, nr, nc⟩], 0⟩]
  else []

/-- Quiet man moves from a square (engine.cpp lines 379-386): one
diagonal step forward, column -1 then +1. -/
def quiet_man_moves (board : Board) (is_white : Bool) (r c : Int) : List Move :=
  let fd : Int := if is_white then -1 else 1
  man_step board r c (r + fd) (c - 1) ++ man_step board r c (r + fd) (c + 1)

/-- One quiet king ray (engine.cpp lines 389-396): ascending slide
distance until an invalid or occupied square. -/
def king_ray (board : Board) (r c dr dc : Int) : Nat → Int → List Move
  | 0, _ => []
  | fuel+1, dist =>
    if is_valid (r + dist*dr) (c + dist*dc) ∧
        bgetI board ((r + dist*dr)*8 + (c + dist*dc)) = EMPTY then
      (⟨[⟨r, c, r + dist*dr, c + dist*dc⟩], 0⟩ : Move) ::
        king_ray board r c dr dc fuel (dist+1)
    else []

/-- Quiet king moves from a square (engine.cpp lines 387-397), in the
fixed direction order of the source. -/
def quiet_king_moves (board : Board) (r c : Int) : List Move :=
  king_ray board r c (-1) (-1) 8 1 ++ king_ray board r c (-1) 1 8 1 ++
  king_ray board r c 1 (-1) 8 1 ++ king_ray board r c 1 1 8 1

/-- Quiet candidates from one square (engine.cpp lines 375-399). -/
def quiet_square_moves (board : Board) (is_white : Bool)
    (my_man my_king : Int) (r c : Int) : List Move :=
  let p := bgetI board (r*8+c)
  if p ≠ my_man ∧ p ≠ my_king then []
  else if p = my_man then quiet_man_moves board is_white r c
  else quiet_king_moves board r c

/-- The full quiet-candidate sequence in source emission order: rows
then columns, i.e. square index order. -/
def quiet_phase (board : Board) (player : Int) : List Move :=
  let is_white := player = WHITE_MAN ∨ player = WHITE_KING
  let my_man := if is_white then WHITE_MAN else BLACK_MAN
  let my_king := if is_white then WHITE_KING else BLACK_KING
  (List.range 64).flatMap
    (fun i => quiet_square_moves board is_white my_man my_king ((i : Int) / 8) ((i : Int) % 8))

/-- Maximum chain length over the enumerated captures
(engine.cpp lines 368-369), computed with the source's fold from 0. -/
def max_chain (l : List Move) : Nat :=
  l.foldl (fun mx m => if mx < m.count then m.count else mx) 0

/-- `generate_moves` (engine.cpp lines 355-401): enumerate capture
chains; if any exist keep exactly those of maximal length, else emit
the quiet moves (through the 128-capacity `MoveList`). -/
def generate_moves (board : Board) (player : Int) : List Move :=
  let caps := capture_phase board player
  if caps ≠ [] then
    caps.filter (fun m => m.count = max_chain caps)
  else
    (quiet_phase board player).foldl push_back []

/-! ## Move application (engine.cpp lines 429-452) -/

/-- The capture walk of one step (engine.cpp lines 437-446): starting
one square after the source, clear every non-empty square met strictly
before the destination, remembering the piece found there.  The C++
`while (curr_r != er)` loop takes exactly `|er - sr| - 1` iterations
(its direction increment always moves the row toward `er`), which is
the fuel used here. -/
def walk_go (dr dc : Int) : Nat → Int → Int → Board × Int → Board × Int
  | 0, _, _, bc => bc
  | fuel+1, r, c, bc =>
    let bc2 :=
      if bgetI bc.1 (r*8+c) ≠ EMPTY then
        (bsetI bc.1 (r*8+c) EMPTY, bgetI bc.1 (r*8+c))
      else bc
    walk_go dr dc fuel (r + dr) (c + dc) bc2

def capture_walk (bc : Board × Int) (st : Step) : Board × Int :=
  walk_go (dirR st) (dirC st) ((st.r2 - st.r1).natAbs - 1)
    (st.r1 + dirR st) (st.c1 + dirC st) bc

/-- The square the walk visits at its `t`-th iteration when started at
`(r, c)` with direction `(dr, dc)`. -/
def wpos (r c dr dc : Int) (t : Nat) : Int :=
  (r + (t : Int) * dr) * 8 + (c + (t : Int) * dc)

/-- The source square index of a move, `steps[0]` (engine.cpp line 430). -/
def apply_src (m : Move) : Int :=
  (m.steps.headD step0).r1 * 8 + (m.steps.headD step0).c1

/-- The final destination square index, `steps[count-1]`
(engine.cpp line 431). -/
def apply_dst (m : Move) : Int :=
  (m.steps.getLastD step0).r2 * 8 + (m.steps.getLastD step0).c2

/-- The promotion epilogue of `apply_move` (engine.cpp lines 449-451). -/
def apply_promote (b : Board) (m : Move) (piece : Int) : Board :=
  let r2 := (m.steps.getLastD step0).r2
  let c2 := (m.steps.getLastD step0).c2
  let b3 := if piece = WHITE_MAN ∧ r2 = 0 then bsetI b (r2*8+c2) WHITE_KING else b
  if piece = BLACK_MAN ∧ r2 = 7 then bsetI b3 (r2*8+c2) BLACK_KING else b3

/-- `apply_move` (engine.cpp lines 429-452).  Returns the new board and
the final value of the `captured_piece_type` out-parameter (whose
incoming value `cap0` survives when no capture is recorded).  The
moving piece is placed on the final destination before the walks run,
and the capture walks execute exactly when the whole move spans at
least two rows or has more than one step. -/
def apply_move (board : Board) (m : Move) (_player : Int) (cap0 : Int) :
    Board × Int :=
  let piece := bgetI board (apply_src m)
  let b1 := bsetI (bsetI board (apply_src m) EMPTY) (apply_dst m) piece
  let bc :=
    if 2 ≤ ((m.steps.headD step0).r1 - (m.steps.getLastD step0).r2).natAbs ∨ 1 < m.count then
      m.steps.foldl capture_walk (b1, cap0)
    else (b1, cap0)
  (apply_promote bc.1 m piece, bc.2)

/-- `is_capture_move` (engine.cpp lines 454-457): inspects only the
first step. -/
def is_capture_move (m : Move) : Bool :=
  if m.count = 0 then false
  else 1 < ((m.steps.headD step0).r1 - (m.steps.headD step0).r2).natAbs

/-- `is_promotion_move` (engine.cpp lines 460-467). -/
def is_promotion_move (m : Move) (piece : Int) : Bool :=
  if m.count ≠ 1 then false
  else
    let r2 := (m.steps.headD step0).r2
    (piece = WHITE_MAN ∧ r2 = 0) ∨ (piece = BLACK_MAN ∧ r2 = 7)

/-! ## Static evaluation (engine.cpp lines 176-278) -/

def PST_WHITE : List Int :=
  [0, 0, 0, 0, 0, 0, 0, 0,
   1500, 1500, 1500, 1500, 1500, 1500, 1500, 1500,
   800, 800, 800, 800, 800, 800, 800, 800,
   200, 200, 250, 250, 250, 250, 200, 200,
   100, 100, 150, 150, 150, 150, 100, 100,
   50, 50, 80, 80, 80, 80, 50, 50,
   20, 20, 20, 20, 20, 20, 20, 20,
   10, 10, 10, 10, 10, 10, 10, 10]

def PST_BLACK : List Int :=
  [10, 10, 10, 10, 10, 10, 10, 10,
   20, 20, 20, 20, 20, 20, 20, 20,
   50, 50, 80, 80, 80, 80, 50, 50,
   100, 100, 150, 150, 150, 150, 100, 100,
   200, 200, 250, 250, 250, 250, 200, 200,
   800, 800, 800, 800, 800, 800, 800, 800,
   1500, 1500, 1500, 1500, 1500, 1500, 1500, 1500,
   0, 0, 0, 0, 0, 0, 0, 0]

/-- Per-piece accumulator state of the evaluation's main scan:
`(w_score, b_score, w_men, b_men, w_kings, b_kings, w_moves, b_moves)`. -/
structure EvalAcc where
  w_score : Int
  b_score : Int
  w_men : Int
  b_men : Int
  w_kings : Int
  b_kings : Int
  w_moves : Int
  b_moves : Int

/-- Main material/PST/mobility scan of `evaluate`
(engine.cpp lines 211-247). -/
def eval_scan (board : Board) (a : EvalAcc) (i : Nat) : EvalAcc :=
  let p := board.getD i 0
  if p = EMPTY ∨ p = GHOST then a
  else
    let r : Int := (i : Int) / 8
    let c : Int := (i : Int) % 8
    if p = WHITE_MAN then
      let s := a.w_score + 1000 + PST_WHITE.getD i 0 + (if r ≤ 2 then 600 else 0)
      let mv := a.w_moves
        + (if 0 < r ∧ 0 < c ∧ board.getD (i - 9) 0 = EMPTY then 1 else 0)
        + (if 0 < r ∧ c < 7 ∧ board.getD (i - 7) 0 = EMPTY then 1 else 0)
      { a with w_score := s, w_men := a.w_men + 1, w_moves := mv }
    else if p = BLACK_MAN then
      let s := a.b_score + 1000 + PST_BLACK.getD i 0 + (if 5 ≤ r then 600 else 0)
      let mv := a.b_moves
        + (if r < 7 ∧ 0 < c ∧ board.getD (i + 7) 0 = EMPTY then 1 else 0)
        + (if r < 7 ∧ c < 7 ∧ board.getD (i + 9) 0 = EMPTY then 1 else 0)
      { a with b_score := s, b_men := a.b_men + 1, b_moves := mv }
    else if p = WHITE_KING then
      { a with w_kings := a.w_kings + 1, w_score := a.w_score + 8000,
               w_moves := a.w_moves + 5 }
    else if p = BLACK_KING then
      { a with b_kings := a.b_kings + 1, b_score := a.b_score + 8000,
               b_moves := a.b_moves + 5 }
    else a

/-- `evaluate` (engine.cpp lines 176-278). -/
def evaluate (board : Board) (current_player : Int) : Int :=
  let a := (List.range 64).foldl (eval_scan board)
    ⟨0, 0, 0, 0, 0, 0, 0, 0⟩
  -- promotion-danger scans (engine.cpp lines 249-266): black men on
  -- row 6 (squares 48..55) with both row-7 landings open, and white
  -- men on row 1 (squares 8..15) with both row-0 landings open.
  let w_score := (List.range' 48 8).foldl
    (fun s i =>
      if board.getD i 0 = BLACK_MAN then
        let c : Int := (i : Int) % 8
        let safe :=
          (is_valid 7 (c - 1) ∧ board.getD (i + 7) 0 ≠ EMPTY) ∨
          (is_valid 7 (c + 1) ∧ board.getD (i + 9) 0 ≠ EMPTY)
        if ¬ safe then s - 1000 else s
      else s)
    a.w_score
  let b_score := (List.range' 8 8).foldl
    (fun s i =>
      if board.getD i 0 = WHITE_MAN then
        let c : Int := (i : Int) % 8
        let safe :=
          (is_valid 0 (c - 1) ∧ board.getD (i - 9) 0 ≠ EMPTY) ∨
          (is_valid 0 (c + 1) ∧ board.getD (i - 7) 0 ≠ EMPTY)
        if ¬ safe then s - 1000 else s
      else s)
    a.b_score
  let w_score := w_score + a.w_moves * 6
  let b_score := b_score + a.b_moves * 6
  let w_total := a.w_men + a.w_kings
  let b_total := a.b_men + a.b_kings
  let w_score := if b_total < w_total then w_score + 2500 / (b_total + 1) else w_score
  let b_score := if w_total < b_total then b_score + 2500 / (w_total + 1) else b_score
  let score := w_score - b_score
  if current_player = WHITE_MAN ∨ current_player = WHITE_KING then score else -score

/-! ## Zobrist hashing and the transposition table
(engine.cpp lines 113-163)

The Zobrist table is filled from a seeded `mt19937_64`; its concrete
values never matter to any property here, so the embedding takes the
table (`zob`, plus the black-to-move constant `zb`) as a parameter. -/

def compute_hash (zob : Nat → Nat → Nat) (zb : Nat)
    (board : Board) (player : Int) : Nat :=
  let h := (List.range 64).foldl
    (fun h i =>
      if board.getD i 0 ≠ EMPTY ∧ board.getD i 0 ≠ GHOST then
        h ^^^ zob i (board.getD i 0).toNat
      else h)
    0
  if player = BLACK_MAN ∨ player = BLACK_KING then h ^^^ zb else h

def TT_EXACT : Int := 0
def TT_ALPHA : Int := 1
def TT_BETA : Int := 2

/-- `TTEntry` (engine.cpp line 130). -/
structure TTEntry where
  key : Nat
  score : Int
  depth : Int
  flag : Int
  best_move : Move

/-- The zeroed entry of the `memset` initialization. -/
def tt_entry0 : TTEntry := ⟨0, 0, 0, 0, empty_move⟩

/-- `tt_save` (engine.cpp lines 141-146): depth-preferring replacement. -/
def tt_save (tt : Nat → TTEntry) (key : Nat) (score depth flag : Int)
    (best_move : Move) : Nat → TTEntry :=
  let idx := key % TT_SIZE
  if (tt idx).key ≠ key ∨ (tt idx).depth ≤ depth then
    fun j => if j = idx then ⟨key, score, depth, flag, best_move⟩ else tt j
  else tt

/-- The mate-distance shift applied to a stored score on probe
(engine.cpp lines 154-155). -/
def tt_shift (s : Int) : Int :=
  let s := if MATE - 1000 < s then s - MAX_PLY else s
  if s < -MATE + 1000 then s + MAX_PLY else s

/-- `tt_probe` (engine.cpp lines 148-163).  Returns the cutoff score
(if any) and the final value of the `tt_move` out-parameter, whose
incoming value `m0` survives when the stored key does not match. -/
def tt_probe (tt : Nat → TTEntry) (key : Nat) (depth alpha beta : Int)
    (m0 : Move) : Option Int × Move :=
  let e := tt (key % TT_SIZE)
  if e.key = key then
    if depth ≤ e.depth then
      let s := tt_shift e.score
      if e.flag = TT_EXACT then (some s, e.best_move)
      else if e.flag = TT_ALPHA ∧ s ≤ alpha then (some alpha, e.best_move)
      else if e.flag = TT_BETA ∧ beta ≤ s then (some beta, e.best_move)
      else (none, e.best_move)
    else (none, e.best_move)
  else (none, m0)

/-! ## Move ordering (engine.cpp lines 403-427) -/

/-- `score_move_ordering` (engine.cpp lines 403-416).  The killer and
history tables (C++ globals) are passed explicitly; the history read
hard-codes side index 0 exactly as the source does. -/
def score_move_ordering (killers : Nat → Nat → Move)
    (history : Nat → Int → Int → Int) (m tt_best : Move) (ply : Nat) : Int :=
  if move_eq m tt_best then 2000000
  else if 0 < m.count ∧
      2 < ((m.steps.headD step0).r1 - (m.steps.getLastD step0).r2).natAbs then
    1000000 + (m.count : Int) * 1000
  else
    let promotion := (m.steps.getLastD step0).r2 = 0 ∨ (m.steps.getLastD step0).r2 = 7
    if promotion then 950000
    else if move_eq m (killers ply 0) then 900000
    else if move_eq m (killers ply 1) then 800000
    else
      let f0 := (m.steps.headD step0).r1 * 8 + (m.steps.headD step0).c1
      let t0 := (m.steps.getLastD step0).r2 * 8 + (m.steps.getLastD step0).c2
      history 0 f0 t0

/-- The best-index scan of `pick_move` (engine.cpp lines 419-425):
first index whose (already written) ordering score strictly exceeds
all earlier ones, starting from -2000000000. -/
def pick_best_idx : List Move → Int → Nat → Option Nat → Option Nat
  | [], _, _, bi => bi
  | m :: rest, bs, i, bi =>
    if bs < m.score then pick_best_idx rest m.score (i+1) (some i)
    else pick_best_idx rest bs (i+1) bi

/-- Swap the elements at positions 0 and `i` of a list. -/
def swap0 (l : List Move) (i : Nat) : List Move :=
  (l.set 0 (l.getD i empty_move)).set i (l.getD 0 empty_move)

/-- `pick_move` (engine.cpp lines 418-427): write ordering scores into
the tail from `start`, then swap the best-scoring element to `start`. -/
def pick_move (killers : Nat → Nat → Move) (history : Nat → Int → Int → Int)
    (moves : List Move) (start : Nat) (tt_best : Move) (ply : Nat) : List Move :=
  let pre := moves.take start
  let tail := (moves.drop start).map
    (fun m => { m with score := score_move_ordering killers history m tt_best ply })
  match pick_best_idx tail (-2000000000) 0 none with
  | none => pre ++ tail
  | some bi => pre ++ swap0 tail bi

/-! ## Search state (engine.cpp globals, lines 60-67)

Wall-clock time is abstracted as an oracle `time_up : Nat → Bool`
telling, for a given value of the node counter, whether the periodic
clock sample at that node would observe the budget as exceeded. -/

structure SearchState where
  tt : Nat → TTEntry
  killers : Nat → Nat → Move
  history : Nat → Int → Int → Int
  nodes : Nat
  stop : Bool

/-- Node-count increment and periodic clock check at `alpha_beta` entry
(engine.cpp lines 470-474); `(n & 2047) == 0` is `n % 2048 = 0`. -/
def clock_tick (time_up : Nat → Bool) (st : SearchState) : SearchState :=
  let n := st.nodes + 1
  { st with nodes := n,
            stop := st.stop || (decide (n % 2048 = 0) && time_up n) }

/-- The killer/history update on a beta cutoff
(engine.cpp lines 553-559), guarded exactly as the source:
only for quiet (`!capture_forced`) single-step moves.  Note the history
write indexes side 0 for white and 1 for black. -/
def cutoff_update (st : SearchState) (capture_forced : Bool) (m : Move)
    (ply : Nat) (player : Int) (depth : Int) : SearchState :=
  if ¬ capture_forced ∧ m.count = 1 then
    let k0 := st.killers ply 0
    let f0 := (m.steps.headD step0).r1 * 8 + (m.steps.headD step0).c1
    let t0 := (m.steps.headD step0).r2 * 8 + (m.steps.headD step0).c2
    let side : Nat := if player = WHITE_MAN ∨ player = WHITE_KING then 0 else 1
    { st with
      killers := fun p s =>
        if p = ply then (if s = 0 then m else if s = 1 then k0 else st.killers p s)
        else st.killers p s,
      history := fun s f t =>
        if s = side ∧ f = f0 ∧ t = t0 then st.history s f t + depth * depth
        else st.history s f t }
  else st

/-! ## Alpha-beta search (engine.cpp lines 469-567)

The C++ recursion terminates through the depth/quiescence logic; the
embedding makes this structural with a fuel parameter (each recursive
call consumes one unit).  All claims about the search hold for every
fuel value on the relevant control path. -/

/-- The context a search runs in: the Zobrist table (seeded once in the
source, values irrelevant to every property here) and the wall-clock
oracle. -/
structure Env where
  zob : Nat → Nat → Nat
  zb : Nat
  time_up : Nat → Bool

/-- The move loop of `alpha_beta` (engine.cpp lines 516-564) followed
by the `tt_save` epilogue (line 565), parameterized by the recursive
search `ab`.  The iteration counter `k` starts at the length of the
move list, which `pick_move` preserves. -/
def ab_loop
    (ab : Board → Int → Int → Int → Int → Nat → Bool → SearchState → Int × SearchState)
    (board : Board) (depth : Int) (player : Int) (ply : Nat)
    (capture_forced : Bool) (enemy : Int) (tt_move : Move) (h : Nat) :
    Nat → Nat → List Move → Int → Int → Int → Move → Int → SearchState →
    Int × SearchState
  | 0, _, _, _, _, best, bm, flag, st =>
    (best, { st with tt := tt_save st.tt h best depth flag bm })
  | k+1, i, moves, alpha, beta, best, bm, flag, st =>
    if moves.length ≤ i then
      (best, { st with tt := tt_save st.tt h best depth flag bm })
    else
      let moves2 := pick_move st.killers st.history moves i tt_move ply
      let m := moves2.getD i empty_move
      let piece := bgetI board ((m.steps.headD step0).r1 * 8 + (m.steps.headD step0).c1)
      let promotion := is_promotion_move m piece
      let tb := (apply_move board m player 0).1
      let extension : Int := if promotion = true ∧ (ply : Int) < MAX_PLY then 1 else 0
      let ss :=
        if i = 0 then
          let r := ab tb (depth - 1 + extension) (-beta) (-alpha) enemy (ply+1) true st
          (-r.1, r.2)
        else
          let reduction : Int :=
            if 3 ≤ depth ∧ capture_forced = false ∧ promotion = false ∧
                m.count = 1 ∧ 3 < i then 1 else 0
          let r := ab tb (depth - 1 - reduction + extension) (-alpha - 1) (-alpha)
            enemy (ply+1) true st
          let s1 := -r.1
          if alpha < s1 ∧ s1 < beta then
            let r2 := ab tb (depth - 1 + extension) (-beta) (-alpha) enemy (ply+1) true r.2
            (-r2.1, r2.2)
          else (s1, r.2)
      let score := ss.1
      let st2 := ss.2
      if st2.stop then (0, st2)
      else if best < score then
        if alpha < score then
          if beta ≤ score then
            let st3 := cutoff_update st2 capture_forced m ply player depth
            (score, { st3 with tt := tt_save st3.tt h score depth TT_BETA m })
          else
            ab_loop ab board depth player ply capture_forced enemy tt_move h
              k (i+1) moves2 score beta score m TT_EXACT st2
        else
          ab_loop ab board depth player ply capture_forced enemy tt_move h
            k (i+1) moves2 alpha beta score m flag st2
      else
        ab_loop ab board depth player ply capture_forced enemy tt_move h
          k (i+1) moves2 alpha beta best bm flag st2

/-- `capture_forced` (engine.cpp line 482): first generated move is a
capture. -/
def cf_flag (moves : List Move) : Bool :=
  decide (0 < moves.length) && is_capture_move (moves.headD empty_move)

/-- `is_noisy` (engine.cpp lines 485-495): a capture is forced or some
move promotes a man. -/
def noisy_flag (board : Board) (moves : List Move) : Bool :=
  cf_flag moves || moves.any (fun m =>
    is_promotion_move m
      (bgetI board ((m.steps.headD step0).r1 * 8 + (m.steps.headD step0).c1)))

/-- `alpha_beta` (engine.cpp lines 469-567).  The `do_null` parameter
is carried but, as in the source, never read. -/
def alpha_beta (env : Env) :
    Nat → Board → Int → Int → Int → Int → Nat → Bool → SearchState →
    Int × SearchState
  | 0, _, _, _, _, _, _, _, st => (0, st)
  | fuel+1, board, depth, alpha, beta, player, ply, _do_null, st =>
    let st1 := clock_tick env.time_up st
    if st1.stop then (0, st1)
    else
      let moves := generate_moves board player
      if moves.length = 0 then (-MATE + (ply : Int), st1)
      else
        if depth ≤ 0 ∧ (noisy_flag board moves = false ∨ depth < -12) then
          (evaluate board player, st1)
        else
          let h := compute_hash env.zob env.zb board player
          let pr := tt_probe st1.tt h depth alpha beta empty_move
          let enemy := if player = WHITE_MAN ∨ player = WHITE_KING
            then BLACK_MAN else WHITE_MAN
          if pr.1.isSome ∧ 0 < ply then (pr.1.getD 0, st1)
          else
            ab_loop (alpha_beta env fuel) board depth player ply (cf_flag moves)
              enemy pr.2 h moves.length 0 moves alpha beta (-INF)
              (moves.headD empty_move) TT_ALPHA st1

/-! ## Iterative-deepening driver (engine.cpp lines 578-655) -/

/-- `MoveResult` (engine.cpp line 36); the 12-slot step array is
modelled by the copied step list. -/
structure MoveResult where
  steps : List Step
  count : Nat
  score : Int
  depth : Int
  nodes : Int

/-- The root move loop of one deepening iteration
(engine.cpp lines 612-633). -/
def root_loop (env : Env) (fuel : Nat) (board : Board) (player : Int)
    (d : Nat) (enemy : Int) :
    Nat → Nat → List Move → Int → Int → Move → Int → SearchState →
    Move × Int × SearchState
  | 0, _, _, _, _, cb, cs, st => (cb, cs, st)
  | k+1, i, root, alpha, beta, cb, cs, st =>
    if root.length ≤ i then (cb, cs, st)
    else
      let m := root.getD i empty_move
      let piece := bgetI board ((m.steps.headD step0).r1 * 8 + (m.steps.headD step0).c1)
      let promotion := is_promotion_move m piece
      let extension : Int := if promotion then 1 else 0
      let tb := (apply_move board m player 0).1
      let ss :=
        if i = 0 then
          let r := alpha_beta env fuel tb ((d : Int) - 1 + extension) (-beta) (-alpha)
            enemy 1 true st
          (-r.1, r.2)
        else
          let r := alpha_beta env fuel tb ((d : Int) - 1 + extension) (-alpha - 1) (-alpha)
            enemy 1 true st
          let s1 := -r.1
          if alpha < s1 ∧ s1 < beta then
            let r2 := alpha_beta env fuel tb ((d : Int) - 1 + extension) (-beta) (-alpha)
              enemy 1 true r.2
            (-r2.1, r2.2)
          else (s1, r.2)
      let score := ss.1
      let st2 := ss.2
      if st2.stop then (cb, cs, st2)
      else if cs < score then
        let alpha2 := if alpha < score then score else alpha
        root_loop env fuel board player d enemy k (i+1) root alpha2 beta m score st2
      else
        root_loop env fuel board player d enemy k (i+1) root alpha beta cb cs st2

/-- The `for (d = 1..max_depth)` loop of `get_best_move`
(engine.cpp lines 606-643), returning the (reordered) root list, the
committed move and score, the reached depth and the final state. -/
def id_loop (env : Env) (fuel : Nat) (board : Board) (player : Int) (enemy : Int) :
    Nat → Nat → List Move → Move → Int → Int → SearchState →
    List Move × Move × Int × Int × SearchState
  | 0, _, root, bo, bso, rd, st => (root, bo, bso, rd, st)
  | rem+1, d, root, bo, bso, rd, st =>
    let root2 := pick_move st.killers st.history root 0 bo 0
    let r := root_loop env fuel board player d enemy root2.length 0 root2
      (-INF) INF (root2.headD empty_move) (-INF) st
    let cb := r.1
    let cs := r.2.1
    let st2 := r.2.2
    if st2.stop then (root2, bo, bso, rd, st2)
    else if MATE - 5000 < cs then (root2, cb, cs, (d : Int), st2)
    else id_loop env fuel board player enemy rem (d+1) root2 cb cs (d : Int) st2

/-- `get_best_move` (engine.cpp lines 578-655).  The caller's result
buffer `res0` is threaded so that fields the source leaves unwritten
keep their incoming values; the returned state models the process-wide
search tables. -/
def get_best_move (env : Env) (fuel : Nat) (board : Board) (player : Int)
    (max_depth : Nat) (st0 : SearchState) (res0 : MoveResult) :
    MoveResult × SearchState :=
  let root := generate_moves board player
  if root.length = 0 then
    ({ res0 with count := 0, score := -MATE }, st0)
  else if root.length = 1 then
    let best := root.headD empty_move
    ({ res0 with steps := best.steps, count := best.count,
                 score := 0, depth := 1, nodes := 0 }, st0)
  else
    let st := { st0 with stop := false, nodes := 0 }
    let enemy := if player = WHITE_MAN ∨ player = WHITE_KING
      then BLACK_MAN else WHITE_MAN
    let r := id_loop env fuel board player enemy max_depth 1 root
      (root.headD empty_move) (-INF) 0 st
    let root3 := r.1
    let bo := r.2.1
    let bso := r.2.2.1
    let rd := r.2.2.2.1
    let st2 := r.2.2.2.2
    let res := { res0 with steps := bo.steps, count := bo.count,
                           score := bso, depth := rd, nodes := (st2.nodes : Int) }
    let res2 :=
      if res.count = 0 ∧ 0 < root3.length then
        { res with steps := (root3.headD empty_move).steps,
                   count := (root3.headD empty_move).count }
      else res
    (res2, st2)

/-! ## Spec-side description of legal quiet moves

For the refinement claim about `generate_moves`, the following
definitions follow the specification's words, not the code: a legal
quiet move is one step of the side's man one diagonal square forward to
an empty square, or of the side's king to any reachable empty square
along a diagonal (all squares strictly between being empty). -/

/-- The square at slide distance `k` from the step's source toward its
destination, using the component-wise directions of the step. -/
def ray_sq (st : Step) (k : Nat) : Int :=
  (st.r1 + (k : Int) * dirR st) * 8 + (st.c1 + (k : Int) * dirC st)

/-- The spec-side content of a legal quiet king step: a true diagonal
whose squares at distances 1 .. |Δr| (strictly-between squares and the
destination) are all empty. -/
def spec_king_cond (board : Board) (st : Step) : Prop :=
  (st.r2 - st.r1).natAbs = (st.c2 - st.c1).natAbs ∧ st.r1 ≠ st.r2 ∧
  ∀ k ∈ Finset.Icc 1 (st.r2 - st.r1).natAbs, bgetI board (ray_sq st k) = EMPTY

/-- Spec-side legal quiet step ("men one diagonal step forward to an
empty square; kings every reachable empty square along each diagonal"),
written from the specification's statement of the rules. -/
def spec_quiet_step (board : Board) (player : Int) (st : Step) : Prop :=
  let is_white := player = WHITE_MAN ∨ player = WHITE_KING
  let p := bgetI board (st.r1 * 8 + st.c1)
  is_valid st.r1 st.c1 = true ∧ is_valid st.r2 st.c2 = true ∧
  ((p = (if is_white then WHITE_MAN else BLACK_MAN) ∧
      st.r2 = st.r1 + (if is_white then (-1 : Int) else 1) ∧
      (st.c2 - st.c1).natAbs = 1 ∧
      bgetI board (st.r2 * 8 + st.c2) = EMPTY) ∨
   (p = (if is_white then WHITE_KING else BLACK_KING) ∧
      spec_king_cond board st))

instance (board : Board) (st : Step) :
    Decidable (spec_king_cond board st) := by
  unfold spec_king_cond; infer_instance

instance (board : Board) (player : Int) (st : Step) :
    Decidable (spec_quiet_step board player st) := by
  unfold spec_quiet_step; infer_instance

/-! ## Lemmas: the capped `MoveList` is a 128-truncation -/

theorem push_back_eq_take (l : List Move) (m : Move) (h : l.length ≤ 128) :
    push_back l m = (l ++ [m]).take 128 := by
  unfold push_back
  rcases lt_or_eq_of_le h with h' | h'
  · rw [if_pos h', List.take_of_length_le]
    simp; omega
  · rw [if_neg (by omega)]
    rw [← h', List.take_left]

theorem foldl_push_back_eq_take (l acc : List Move) (h : acc.length ≤ 128) :
    l.foldl push_back acc = (acc ++ l).take 128 := by
  induction l generalizing acc with
  | nil => simp [List.take_of_length_le h]
  | cons m rest ih =>
    have hlen : (push_back acc m).length ≤ 128 := by
      unfold push_back; split
      · simp only [List.length_append, List.length_cons, List.length_nil]; omega
      · exact h
    rw [List.foldl_cons, ih (push_back acc m) hlen, push_back_eq_take acc m h]
    rcases lt_or_le acc.length 128 with h' | h'
    · rw [List.take_of_length_le (l := acc ++ [m]) (by simp; omega)]
      simp [List.append_assoc]
    · have hl : acc.length = 128 := le_antisymm h h'
      calc ((acc ++ [m]).take 128 ++ rest).take 128
          = (acc ++ rest).take 128 := by rw [← hl, List.take_left]
        _ = acc.take 128 := List.take_append_of_le_length (by omega)
        _ = (acc ++ (m :: rest)).take 128 :=
            (List.take_append_of_le_length (by omega)).symm

/-! ## Lemmas: quiet-move generation matches the spec-side rules -/

theorem mem_king_ray (board : Board) (r c dr dc : Int) :
    ∀ (fuel : Nat) (dist : Int) (m : Move),
    m ∈ king_ray board r c dr dc fuel dist ↔
    ∃ n : Int, dist ≤ n ∧ n < dist + (fuel : Int) ∧
      m = ⟨[⟨r, c, r + n * dr, c + n * dc⟩], 0⟩ ∧
      ∀ t : Int, dist ≤ t → t ≤ n →
        is_valid (r + t * dr) (c + t * dc) = true ∧
        bgetI board ((r + t * dr) * 8 + (c + t * dc)) = EMPTY := by
  intro fuel
  induction fuel with
  | zero =>
    intro dist m
    simp only [king_ray, List.not_mem_nil, false_iff, not_exists]
    intro n h
    omega
  | succ fuel ih =>
    intro dist m
    rw [king_ray]
    by_cases hc : is_valid (r + dist*dr) (c + dist*dc) = true ∧
        bgetI board ((r + dist*dr)*8 + (c + dist*dc)) = EMPTY
    · rw [if_pos (by exact_mod_cast hc)]
      rw [List.mem_cons, ih (dist+1) m]
      constructor
      · rintro (hm | ⟨n, hn1, hn2, hm, hall⟩)
        · refine ⟨dist, le_refl _, by push_cast; omega, hm, ?_⟩
          intro t h1 h2
          have ht : t = dist := le_antisymm h2 h1
          simpa [ht] using hc
        · refine ⟨n, by omega, by push_cast at hn2 ⊢; omega, hm, ?_⟩
          intro t h1 h2
          rcases eq_or_lt_of_le h1 with h1' | h1'
          · simpa [← h1'] using hc
          · exact hall t (by omega) h2
      · rintro ⟨n, hn1, hn2, hm, hall⟩
        rcases eq_or_lt_of_le hn1 with hn1' | hn1'
        · left; rw [hm, ← hn1']
        · right
          exact ⟨n, by omega, by push_cast at hn2 ⊢; omega, hm,
            fun t h1 h2 => hall t (by omega) h2⟩
    · rw [if_neg (by exact_mod_cast hc)]
      simp only [List.not_mem_nil, false_iff, not_exists]
      rintro n ⟨hn1, hn2, hm, hall⟩
      exact hc (by simpa using hall dist (le_refl _) hn1)

theorem mem_king_ray_one (board : Board) (r c dr dc : Int)
    (hdr : dr = 1 ∨ dr = -1) (hdc : dc = 1 ∨ dc = -1)
    (hr : 0 ≤ r) (hr8 : r < 8) (hc0 : 0 ≤ c) (hc8 : c < 8) (m : Move) :
    m ∈ king_ray board r c dr dc 8 1 ↔
    ∃ st : Step, m = ⟨[st], 0⟩ ∧ st.r1 = r ∧ st.c1 = c ∧
      dirR st = dr ∧ dirC st = dc ∧
      is_valid st.r2 st.c2 = true ∧ spec_king_cond board st := by
  rw [mem_king_ray]
  unfold spec_king_cond
  constructor
  · rintro ⟨n, hn1, hn2, hm, hall⟩
    have hdR : dirR ⟨r, c, r + n * dr, c + n * dc⟩ = dr := by
      unfold dirR; dsimp only
      rcases hdr with h | h <;> subst h
      · rw [if_pos (by omega)]
      · rw [if_neg (by omega)]
    have hdC : dirC ⟨r, c, r + n * dr, c + n * dc⟩ = dc := by
      unfold dirC; dsimp only
      rcases hdc with h | h <;> subst h
      · rw [if_pos (by omega)]
      · rw [if_neg (by omega)]
    refine ⟨⟨r, c, r + n * dr, c + n * dc⟩, hm, rfl, rfl, hdR, hdC,
      (hall n hn1 (le_refl _)).1, ?_, ?_, ?_⟩
    · dsimp only
      rcases hdr with h | h <;> rcases hdc with h' | h' <;> subst h <;> subst h' <;> omega
    · dsimp only
      rcases hdr with h | h <;> subst h <;> omega
    · intro k hk
      rw [Finset.mem_Icc] at hk
      dsimp only at hk
      have hkn : 1 ≤ (k : Int) ∧ (k : Int) ≤ n := by
        rcases hdr with h | h <;> subst h <;> exact ⟨by omega, by omega⟩
      have hray : ray_sq ⟨r, c, r + n * dr, c + n * dc⟩ k =
          (r + (k : Int) * dr) * 8 + (c + (k : Int) * dc) := by
        simp [ray_sq, hdR, hdC]
      rw [hray]
      exact (hall (k : Int) hkn.1 hkn.2).2
  · rintro ⟨st, hm, h1, h2, hdR, hdC, hval, hab, hne, hall⟩
    have hval' : (0 ≤ st.r2 ∧ st.r2 < 8) ∧ 0 ≤ st.c2 ∧ st.c2 < 8 := by
      unfold is_valid at hval
      simp only [Bool.and_eq_true, decide_eq_true_eq] at hval
      tauto
    obtain ⟨⟨hv1, hv2⟩, hv3, hv4⟩ := hval'
    obtain ⟨dn, hdn⟩ : ∃ dn : Int, dn = ((st.r2 - st.r1).natAbs : Int) := ⟨_, rfl⟩
    have hr2 : st.r2 = r + dn * dr := by
      unfold dirR at hdR
      rcases hdr with h | h <;> subst h <;> (split at hdR <;> omega)
    have hc2 : st.c2 = c + dn * dc := by
      unfold dirC at hdC
      rcases hdc with h | h <;> subst h <;> (split at hdC <;> omega)
    have hd1 : 1 ≤ dn := by omega
    have hd7 : dn ≤ 7 := by omega
    refine ⟨dn, hd1, by omega, ?_, ?_⟩
    · rw [hm]
      show (⟨[⟨st.r1, st.c1, st.r2, st.c2⟩], 0⟩ : Move) = _
      rw [h1, h2, hr2, hc2]
    · intro t ht1 ht2
      obtain ⟨k, hk, hk1, hkd⟩ :
          ∃ k : Nat, (k : Int) = t ∧ 1 ≤ k ∧ (k : Int) ≤ dn :=
        ⟨t.toNat, by omega, by omega, by omega⟩
      constructor
      · unfold is_valid
        simp only [Bool.and_eq_true, decide_eq_true_eq]
        rcases hdr with h | h <;> rcases hdc with h' | h' <;> subst h <;> subst h' <;>
          exact ⟨⟨⟨by omega, by omega⟩, by omega⟩, by omega⟩
      · have hmem := hall k (Finset.mem_Icc.mpr ⟨hk1, by omega⟩)
        unfold ray_sq at hmem
        rw [hdR, hdC, h1, h2] at hmem
        rw [← hk]
        exact hmem

theorem mem_quiet_king_moves (board : Board) (r c : Int)
    (hr : 0 ≤ r) (hr8 : r < 8) (hc0 : 0 ≤ c) (hc8 : c < 8) (m : Move) :
    m ∈ quiet_king_moves board r c ↔
    ∃ st : Step, m = ⟨[st], 0⟩ ∧ st.r1 = r ∧ st.c1 = c ∧
      is_valid st.r2 st.c2 = true ∧ spec_king_cond board st := by
  unfold quiet_king_moves
  simp only [List.mem_append]
  rw [mem_king_ray_one board r c (-1) (-1) (by right; rfl) (by right; rfl) hr hr8 hc0 hc8,
    mem_king_ray_one board r c (-1) 1 (by right; rfl) (by left; rfl) hr hr8 hc0 hc8,
    mem_king_ray_one board r c 1 (-1) (by left; rfl) (by right; rfl) hr hr8 hc0 hc8,
    mem_king_ray_one board r c 1 1 (by left; rfl) (by left; rfl) hr hr8 hc0 hc8]
  constructor
  · intro hx
    rcases hx with ((⟨st, hm, h1, h2, hdr1, hdc1, hval, hcond⟩ |
        ⟨st, hm, h1, h2, hdr1, hdc1, hval, hcond⟩) |
        ⟨st, hm, h1, h2, hdr1, hdc1, hval, hcond⟩) |
        ⟨st, hm, h1, h2, hdr1, hdc1, hval, hcond⟩ <;>
      exact ⟨st, hm, h1, h2, hval, hcond⟩
  · rintro ⟨st, hm, h1, h2, hval, hcond⟩
    have hdR : dirR st = 1 ∨ dirR st = -1 := by unfold dirR; split <;> simp
    have hdC : dirC st = 1 ∨ dirC st = -1 := by unfold dirC; split <;> simp
    rcases hdR with h | h <;> rcases hdC with h' | h'
    · exact Or.inr ⟨st, hm, h1, h2, h, h', hval, hcond⟩
    · exact Or.inl (Or.inr ⟨st, hm, h1, h2, h, h', hval, hcond⟩)
    · exact Or.inl (Or.inl (Or.inr ⟨st, hm, h1, h2, h, h', hval, hcond⟩))
    · exact Or.inl (Or.inl (Or.inl ⟨st, hm, h1, h2, h, h', hval, hcond⟩))

theorem mem_quiet_man_moves (board : Board) (iw : Bool) (r c : Int) (m : Move) :
    m ∈ quiet_man_moves board iw r c ↔
    ∃ st : Step, m = ⟨[st], 0⟩ ∧ st.r1 = r ∧ st.c1 = c ∧
      st.r2 = r + (if iw then (-1 : Int) else 1) ∧ (st.c2 - st.c1).natAbs = 1 ∧
      is_valid st.r2 st.c2 = true ∧ bgetI board (st.r2 * 8 + st.c2) = EMPTY := by
  unfold quiet_man_moves man_step
  simp only [List.mem_append]
  constructor
  · intro hx
    rcases hx with hx | hx
    · by_cases hcnd : is_valid (r + (if iw then (-1 : Int) else 1)) (c - 1) = true ∧
          bgetI board ((r + (if iw then (-1 : Int) else 1)) * 8 + (c - 1)) = EMPTY
      · rw [if_pos hcnd] at hx
        simp only [List.mem_singleton] at hx
        refine ⟨⟨r, c, r + (if iw then (-1 : Int) else 1), c - 1⟩, hx, rfl, rfl, rfl,
          by dsimp only; omega, hcnd.1, hcnd.2⟩
      · rw [if_neg hcnd] at hx
        exact absurd hx (List.not_mem_nil m)
    · by_cases hcnd : is_valid (r + (if iw then (-1 : Int) else 1)) (c + 1) = true ∧
          bgetI board ((r + (if iw then (-1 : Int) else 1)) * 8 + (c + 1)) = EMPTY
      · rw [if_pos hcnd] at hx
        simp only [List.mem_singleton] at hx
        refine ⟨⟨r, c, r + (if iw then (-1 : Int) else 1), c + 1⟩, hx, rfl, rfl, rfl,
          by dsimp only; omega, hcnd.1, hcnd.2⟩
      · rw [if_neg hcnd] at hx
        exact absurd hx (List.not_mem_nil m)
  · rintro ⟨st, hm, h1, h2, hr2, hab, hval, hemp⟩
    have hc2 : st.c2 = c - 1 ∨ st.c2 = c + 1 := by omega
    rcases hc2 with h | h
    · left
      rw [hr2, h] at hval hemp
      rw [if_pos ⟨hval, hemp⟩]
      simp only [List.mem_singleton]
      rw [hm]
      show (⟨[⟨st.r1, st.c1, st.r2, st.c2⟩], 0⟩ : Move) = _
      rw [h1, h2, hr2, h]
    · right
      rw [hr2, h] at hval hemp
      rw [if_pos ⟨hval, hemp⟩]
      simp only [List.mem_singleton]
      rw [hm]
      show (⟨[⟨st.r1, st.c1, st.r2, st.c2⟩], 0⟩ : Move) = _
      rw [h1, h2, hr2, h]

theorem mem_quiet_square (board : Board) (iw : Bool) (mm mk2 : Int)
    (hmk : mm ≠ mk2) (r c : Int)
    (hr : 0 ≤ r) (hr8 : r < 8) (hc0 : 0 ≤ c) (hc8 : c < 8) (m : Move) :
    m ∈ quiet_square_moves board iw mm mk2 r c ↔
    ∃ st : Step, m = ⟨[st], 0⟩ ∧ st.r1 = r ∧ st.c1 = c ∧
      ((bgetI board (r * 8 + c) = mm ∧
          st.r2 = r + (if iw then (-1 : Int) else 1) ∧
          (st.c2 - st.c1).natAbs = 1 ∧
          is_valid st.r2 st.c2 = true ∧
          bgetI board (st.r2 * 8 + st.c2) = EMPTY) ∨
       (bgetI board (r * 8 + c) = mk2 ∧
          is_valid st.r2 st.c2 = true ∧ spec_king_cond board st)) := by
  unfold quiet_square_moves
  by_cases h1 : bgetI board (r * 8 + c) = mm
  · rw [if_neg (by simp [h1]), if_pos h1, mem_quiet_man_moves]
    constructor
    · rintro ⟨st, hm, ha, hb, hc, hd, he, hf⟩
      exact ⟨st, hm, ha, hb, Or.inl ⟨h1, hc, hd, he, hf⟩⟩
    · rintro ⟨st, hm, ha, hb, (⟨hp, hc, hd, he, hf⟩ | ⟨hp, _, _⟩)⟩
      · exact ⟨st, hm, ha, hb, hc, hd, he, hf⟩
      · exact absurd (h1 ▸ hp) hmk
  · by_cases h2 : bgetI board (r * 8 + c) = mk2
    · rw [if_neg (by simp [h2]), if_neg h1, mem_quiet_king_moves board r c hr hr8 hc0 hc8]
      constructor
      · rintro ⟨st, hm, ha, hb, hval, hcond⟩
        exact ⟨st, hm, ha, hb, Or.inr ⟨h2, hval, hcond⟩⟩
      · rintro ⟨st, hm, ha, hb, (⟨hp, _⟩ | ⟨_, hval, hcond⟩)⟩
        · exact absurd hp h1
        · exact ⟨st, hm, ha, hb, hval, hcond⟩
    · rw [if_pos ⟨h1, h2⟩]
      simp only [List.not_mem_nil, false_iff, not_exists]
      rintro st ⟨hm, ha, hb, (⟨hp, _⟩ | ⟨hp, _⟩)⟩
      · exact h1 hp
      · exact h2 hp

theorem mem_quiet_phase (board : Board) (player : Int) (m : Move) :
    m ∈ quiet_phase board player ↔
    ∃ st : Step, m = ⟨[st], 0⟩ ∧ spec_quiet_step board player st := by
  unfold quiet_phase spec_quiet_step
  simp only [List.mem_flatMap, List.mem_range, decide_eq_true_eq]
  have hmk : (if player = WHITE_MAN ∨ player = WHITE_KING then WHITE_MAN else BLACK_MAN) ≠
      (if player = WHITE_MAN ∨ player = WHITE_KING then WHITE_KING else BLACK_KING) := by
    split <;> decide
  constructor
  · rintro ⟨i, hi, hm⟩
    have hb : 0 ≤ ((i : Int) / 8) ∧ (i : Int) / 8 < 8 ∧
        0 ≤ ((i : Int) % 8) ∧ (i : Int) % 8 < 8 := by omega
    rw [mem_quiet_square board _ _ _ hmk _ _ hb.1 hb.2.1 hb.2.2.1 hb.2.2.2] at hm
    obtain ⟨st, hmv, ha, hc, hcase⟩ := hm
    have hsq : st.r1 * 8 + st.c1 = (i : Int) := by omega
    refine ⟨st, hmv, ?_, ?_, ?_⟩
    · unfold is_valid
      simp only [Bool.and_eq_true, decide_eq_true_eq]
      exact ⟨⟨⟨by omega, by omega⟩, by omega⟩, by omega⟩
    · rcases hcase with ⟨_, _, _, hval, _⟩ | ⟨_, hval, _⟩ <;> exact hval
    · rcases hcase with ⟨hp, hc2, hd, he, hf⟩ | ⟨hp, hval, hcond⟩
      · left
        simp only [decide_eq_true_eq] at hc2
        refine ⟨by rw [ha, hc]; exact hp, by rw [ha]; exact hc2, hd, hf⟩
      · right
        exact ⟨by rw [ha, hc]; exact hp, hcond⟩
  · rintro ⟨st, hmv, hv1, hv2, hcase⟩
    have hv1' : (0 ≤ st.r1 ∧ st.r1 < 8) ∧ 0 ≤ st.c1 ∧ st.c1 < 8 := by
      unfold is_valid at hv1
      simp only [Bool.and_eq_true, decide_eq_true_eq] at hv1
      tauto
    obtain ⟨⟨ha1, ha2⟩, ha3, ha4⟩ := hv1'
    refine ⟨(st.r1 * 8 + st.c1).toNat, by omega, ?_⟩
    have hdiv : ((st.r1 * 8 + st.c1).toNat : Int) / 8 = st.r1 ∧
        ((st.r1 * 8 + st.c1).toNat : Int) % 8 = st.c1 := by
      constructor <;> omega
    rw [mem_quiet_square board _ _ _ hmk _ _ (by omega) (by omega) (by omega) (by omega)]
    simp only [decide_eq_true_eq]
    refine ⟨st, hmv, hdiv.1.symm, hdiv.2.symm, ?_⟩
    rcases hcase with ⟨hp, hc2, hd, he⟩ | ⟨hp, hcond⟩
    · left
      refine ⟨?_, ?_, hd, hv2, he⟩
      · rw [hdiv.1, hdiv.2]; exact hp
      · rw [hdiv.1]; exact hc2
    · right
      refine ⟨?_, hv2, hcond⟩
      · rw [hdiv.1, hdiv.2]; exact hp

/-! ## Lemmas: invariants of the capture enumerator -/

theorem mem_push_back {l : List Move} {m mv : Move} (h : mv ∈ push_back l m) :
    mv ∈ l ∨ mv = m := by
  unfold push_back at h
  split at h
  · rcases List.mem_append.mp h with h' | h'
    · exact Or.inl h'
    · exact Or.inr (List.mem_singleton.mp h')
  · exact Or.inl h

theorem foldl_preserve {α β : Type} (P : β → Prop) (f : β → α → β)
    (hf : ∀ b a, P b → P (f b a)) : ∀ (l : List α) (b : β), P b → P (l.foldl f b)
  | [], b, hb => hb
  | a :: l, b, hb => foldl_preserve P f hf l (f b a) (hf b a hb)

/-- A property `P` of move lists preserved by pushing chains of 1..12
steps is preserved by `man_capture_dir`. -/
theorem man_dir_preserve (P : List Move → Prop)
    (recur : Board → Int → Int → Move → List Move → List Move)
    (hrec : ∀ b r' c' mv a, mv.count ≤ 12 → P a → P (recur b r' c' mv a))
    (board : Board) (r c em ek piece : Int) (cur : Move) (dr dc : Int)
    (af : List Move × Bool) (hcur : cur.count ≤ 11) (hP : P af.1) :
    P (man_capture_dir recur board r c em ek piece cur dr dc af).1 := by
  simp only [man_capture_dir]
  split
  · split
    · exact hrec _ _ _ _ _
        (by simp only [Move.count, List.length_append, List.length_cons,
          List.length_nil] at hcur ⊢; omega) hP
    · exact hP
  · exact hP

theorem king_land_preserve (P : List Move → Prop)
    (recur : Board → Int → Int → Move → List Move → List Move)
    (hrec : ∀ b r' c' mv a, mv.count ≤ 12 → P a → P (recur b r' c' mv a))
    (board : Board) (r c piece : Int) (cur : Move) (nr nc dr dc : Int)
    (hcur : cur.count ≤ 11) :
    ∀ (fuel : Nat) (ld : Int) (af : List Move × Bool), P af.1 →
      P (king_land recur board r c piece cur nr nc dr dc fuel ld af).1
  | 0, _, _, hP => hP
  | fuel+1, ld, af, hP => by
    simp only [king_land]
    split
    · exact hP
    · split
      · exact hP
      · exact king_land_preserve P recur hrec board r c piece cur nr nc dr dc hcur
          fuel (ld+1) _ (hrec _ _ _ _ _
            (by simp only [Move.count, List.length_append, List.length_cons,
              List.length_nil] at hcur ⊢; omega) hP)

theorem king_scan_preserve (P : List Move → Prop)
    (recur : Board → Int → Int → Move → List Move → List Move)
    (hrec : ∀ b r' c' mv a, mv.count ≤ 12 → P a → P (recur b r' c' mv a))
    (board : Board) (r c mym myk em ek piece : Int) (cur : Move) (dr dc : Int)
    (hcur : cur.count ≤ 11) :
    ∀ (fuel : Nat) (dist : Int) (af : List Move × Bool), P af.1 →
      P (king_scan recur board r c mym myk em ek piece cur dr dc fuel dist af).1
  | 0, _, _, hP => hP
  | fuel+1, dist, af, hP => by
    simp only [king_scan]
    split
    · exact hP
    · split
      · exact hP
      · split
        · exact king_land_preserve P recur hrec board r c piece cur _ _ dr dc hcur 8 1 af hP
        · exact king_scan_preserve P recur hrec board r c mym myk em ek piece cur dr dc hcur
            fuel (dist+1) af hP

theorem capture_dirs_preserve (P : List Move → Prop)
    (recur : Board → Int → Int → Move → List Move → List Move)
    (hrec : ∀ b r' c' mv a, mv.count ≤ 12 → P a → P (recur b r' c' mv a))
    (board : Board) (r c piece : Int) (is_king : Bool)
    (mym myk em ek : Int) (cur : Move) (hcur : cur.count ≤ 11) :
    ∀ (dirs : List (Int × Int)) (af : List Move × Bool), P af.1 →
      P (capture_dirs recur board r c piece is_king mym myk em ek cur dirs af).1
  | [], _, hP => hP
  | (dr, dc) :: rest, af, hP => by
    simp only [capture_dirs]
    apply capture_dirs_preserve P recur hrec board r c piece is_king mym myk em ek cur hcur rest
    split
    · exact man_dir_preserve P recur hrec board r c em ek piece cur dr dc af hcur hP
    · exact king_scan_preserve P recur hrec board r c mym myk em ek piece cur dr dc hcur 8 1 af hP

/-- Main invariant of `find_captures_recursive`: any property of the
move list preserved by pushing a move of 1..12 steps is preserved by
the enumerator, provided the chain under construction has at most 12
steps.  In particular every emitted chain has between 1 and 12 steps. -/
theorem find_captures_preserve (P : List Move → Prop)
    (hP : ∀ acc mv, P acc → 1 ≤ mv.count → mv.count ≤ 12 → P (push_back acc mv)) :
    ∀ (fuel : Nat) (board : Board) (r c piece : Int) (cur : Move) (acc : List Move),
      cur.count ≤ 12 → P acc →
      P (find_captures_recursive fuel board r c piece cur acc)
  | 0, _, _, _, _, _, _, _, hacc => hacc
  | fuel+1, board, r, c, piece, cur, acc, hcur, hacc => by
    have hrec : ∀ b r' c' mv a, mv.count ≤ 12 → P a →
        P (find_captures_recursive fuel b r' c' piece mv a) :=
      fun b r' c' mv a hmv ha =>
        find_captures_preserve P hP fuel b r' c' piece mv a hmv ha
    simp only [find_captures_recursive]
    rcases Nat.lt_or_ge cur.count 12 with hlt | hge
    · rw [if_neg (by omega)]
      have hcur11 : cur.count ≤ 11 := by omega
      have hstep : ∀ afr : List Move × Bool, P afr.1 →
          P (if ¬ afr.2 = true ∧ 0 < cur.count then push_back afr.1 cur else afr.1) := by
        intro afr hafr
        split
        · exact hP afr.1 cur hafr (by omega) hcur
        · exact hafr
      exact hstep _ (capture_dirs_preserve P _ hrec board r c piece _ _ _ _ _ cur hcur11
        _ (acc, false) hacc)
    · rw [if_pos hge]
      exact hP acc cur hacc (by omega) hcur

/-- A move list within the 128-capacity bound all of whose members are
chains of 1..12 steps. -/
def good_list (l : List Move) : Prop :=
  l.length ≤ 128 ∧ ∀ m ∈ l, 1 ≤ m.count ∧ m.count ≤ 12

theorem push_back_keeps : ∀ (acc : List Move) (mv : Move), good_list acc →
    1 ≤ mv.count → mv.count ≤ 12 → good_list (push_back acc mv) := by
  intro acc mv hacc h1 h12
  unfold push_back
  split
  · constructor
    · simp only [List.length_append, List.length_cons, List.length_nil]; omega
    · intro x hx
      rcases List.mem_append.mp hx with hx' | hx'
      · exact hacc.2 x hx'
      · rw [List.mem_singleton.mp hx']; exact ⟨h1, h12⟩
  · exact hacc

/-- Both key invariants of `capture_phase`: the list stays within the
128-capacity bound and every member is a chain of 1..12 steps. -/
theorem capture_phase_inv (board : Board) (player : Int) :
    good_list (capture_phase board player) := by
  unfold capture_phase
  apply foldl_preserve good_list
  · intro l i hl
    dsimp only
    have hgen : ∀ (q : Prop) (inst : Decidable q) (rr cc pp : Int),
        good_list (@ite _ q inst (find_captures_recursive 13 board rr cc pp empty_move l) l) := by
      intro q inst rr cc pp
      split
      · exact find_captures_preserve good_list push_back_keeps 13 board rr cc pp empty_move l
          (by simp [Move.count, empty_move]) hl
      · exact hl
    exact hgen _ _ _ _ _
  · exact ⟨by simp, by simp⟩

/-! ## Lemmas: max-capture selection -/

theorem max_chain_aux (l : List Move) :
    ∀ a : Nat, a ≤ l.foldl (fun mx m => if mx < m.count then m.count else mx) a ∧
      ∀ m ∈ l, m.count ≤ l.foldl (fun mx m => if mx < m.count then m.count else mx) a := by
  induction l with
  | nil => intro a; exact ⟨le_refl a, by simp⟩
  | cons m rest ih =>
    intro a
    simp only [List.foldl_cons]
    set a2 := if a < m.count then m.count else a with ha2
    have h1 : a ≤ a2 := by rw [ha2]; split <;> omega
    have h2 : m.count ≤ a2 := by rw [ha2]; split <;> omega
    obtain ⟨hle, hmem⟩ := ih a2
    refine ⟨le_trans h1 hle, ?_⟩
    intro x hx
    rcases List.mem_cons.mp hx with hx' | hx'
    · rw [hx']; exact le_trans h2 hle
    · exact hmem x hx'

theorem le_max_chain (l : List Move) (m : Move) (h : m ∈ l) :
    m.count ≤ max_chain l := (max_chain_aux l 0).2 m h

theorem max_chain_attained_aux (l : List Move) :
    ∀ a : Nat,
      l.foldl (fun mx m => if mx < m.count then m.count else mx) a = a ∨
      ∃ m ∈ l, l.foldl (fun mx m => if mx < m.count then m.count else mx) a = m.count := by
  induction l with
  | nil => intro a; exact Or.inl rfl
  | cons m rest ih =>
    intro a
    simp only [List.foldl_cons]
    rcases ih (if a < m.count then m.count else a) with h | ⟨x, hx, hfx⟩
    · rw [h]
      split
      · exact Or.inr ⟨m, List.mem_cons_self m rest, rfl⟩
      · exact Or.inl rfl
    · exact Or.inr ⟨x, List.mem_cons_of_mem m hx, hfx⟩

theorem max_chain_attained (l : List Move) (hne : l ≠ []) :
    ∃ m ∈ l, m.count = max_chain l := by
  rcases max_chain_attained_aux l 0 with h | ⟨m, hm, hfm⟩
  · obtain ⟨m, rest, rfl⟩ := List.exists_cons_of_ne_nil hne
    refine ⟨m, List.mem_cons_self m rest, ?_⟩
    have h1 := le_max_chain _ m (List.mem_cons_self m rest)
    unfold max_chain at h1 ⊢
    omega
  · exact ⟨m, hm, hfm.symm⟩

/-! ## Boards used as concrete instances -/

/-- Empty board. -/
def empty_board : Board := List.replicate 64 0

/-- Scenario S1: a single white man on (5,0); exactly one legal move. -/
def one_move_board : Board := bsetI empty_board (5*8+0) WHITE_MAN

/-- Scenario S2: white man on (4,3), black man on (3,2); a capture is
forced. -/
def cap_board : Board := bsetI (bsetI empty_board (4*8+3) WHITE_MAN) (3*8+2) BLACK_MAN

/-- Scenario S3: white man on (4,3), black men on (3,2) and (1,2); the
two-jump chain is the unique maximal capture. -/
def chain_board : Board := bsetI cap_board (1*8+2) BLACK_MAN

/-- White kings on the whole border: no captures exist, and the 36
interior squares are each reachable by 4 kings, giving 144 legal quiet
moves - more than the 128-slot `MoveList` can hold. -/
def border_kings_board : Board :=
  (List.range 64).map
    (fun i => if i / 8 = 0 ∨ i / 8 = 7 ∨ i % 8 = 0 ∨ i % 8 = 7 then WHITE_KING else EMPTY)

/-! ## Claim C1 -/

/-- C1 (amended): `generate_moves` enforces forced maximum capture: if
any capture chain was enumerated, the returned list is exactly the
enumerated capture chains of maximal step count (and is nonempty, with
no quiet moves); if no capture exists, every returned move is a legal
quiet move per the spec's rules, and - whenever the returned list holds
fewer than 128 moves, so that the `MoveList` capacity did not truncate -
every legal quiet move is returned. -/
theorem generate_moves_max_capture_else_quiet (b : Board) (p : Int) :
    (capture_phase b p ≠ [] →
      generate_moves b p =
        (capture_phase b p).filter (fun m => m.count = max_chain (capture_phase b p)) ∧
      (∀ m : Move, m ∈ generate_moves b p ↔
        m ∈ capture_phase b p ∧ m.count = max_chain (capture_phase b p)) ∧
      generate_moves b p ≠ []) ∧
    (capture_phase b p = [] →
      (∀ m ∈ generate_moves b p, ∃ st : Step, m = ⟨[st], 0⟩ ∧ spec_quiet_step b p st) ∧
      ((generate_moves b p).length < 128 →
        ∀ st : Step, spec_quiet_step b p st → (⟨[st], 0⟩ : Move) ∈ generate_moves b p)) := by
  constructor
  · intro hne
    have hg : generate_moves b p =
        (capture_phase b p).filter (fun m => m.count = max_chain (capture_phase b p)) := by
      unfold generate_moves
      dsimp only
      rw [if_pos hne]
    refine ⟨hg, ?_, ?_⟩
    · intro m
      rw [hg, List.mem_filter]
      simp only [decide_eq_true_eq]
    · obtain ⟨m, hm, hcnt⟩ := max_chain_attained _ hne
      rw [hg]
      exact List.ne_nil_of_mem (List.mem_filter.mpr ⟨hm, by simp [hcnt]⟩)
  · intro hempty
    have hg : generate_moves b p = (quiet_phase b p).take 128 := by
      unfold generate_moves
      dsimp only
      rw [if_neg (by simp [hempty]), foldl_push_back_eq_take _ [] (by simp)]
      simp
    constructor
    · intro m hm
      rw [hg] at hm
      exact (mem_quiet_phase b p m).mp (List.take_subset _ _ hm)
    · intro hlen st hst
      rw [hg] at hlen ⊢
      rw [List.length_take] at hlen
      rw [List.take_of_length_le (by omega)]
      exact (mem_quiet_phase b p _).mpr ⟨st, rfl, hst⟩

/-- C1 counterexample: on the border-kings board no capture exists, the
king step (7,7)->(6,6) is a legal quiet move by the spec's rules, yet
`generate_moves` does not return it - the 144 quiet candidates overflow
the 128-slot `MoveList` and the last 16 are silently dropped. -/
theorem generate_moves_quiet_overflow_counterexample :
    spec_quiet_step border_kings_board WHITE_MAN ⟨7, 7, 6, 6⟩ ∧
    capture_phase border_kings_board WHITE_MAN = [] ∧
    (quiet_phase border_kings_board WHITE_MAN).length = 144 ∧
    (generate_moves border_kings_board WHITE_MAN).length = 128 ∧
    ¬ ((⟨[⟨7, 7, 6, 6⟩], 0⟩ : Move) ∈ generate_moves border_kings_board WHITE_MAN) := by
  refine ⟨by decide, by decide, by decide, by decide, by decide⟩

theorem generate_moves_max_capture_else_quiet_witness :
    capture_phase cap_board WHITE_MAN ≠ [] ∧
    generate_moves cap_board WHITE_MAN ≠ [] ∧
    capture_phase one_move_board WHITE_MAN = [] ∧
    (⟨[⟨5, 0, 4, 1⟩], 0⟩ : Move) ∈ generate_moves one_move_board WHITE_MAN :=
  ⟨by decide,
   ((generate_moves_max_capture_else_quiet cap_board WHITE_MAN).1 (by decide)).2.2,
   by decide,
   ((generate_moves_max_capture_else_quiet one_move_board WHITE_MAN).2 (by decide)).2
     (by decide) ⟨5, 0, 4, 1⟩ (by decide)⟩

/-! ## Claim C4 -/

/-- C4: a capture chain that would exceed 12 steps is cut off by the
enumerator (which emits its 12-step prefix and stops extending, without
aborting): every chain in the enumerated capture list - the list
max-capture selection is applied to - has at most 12 steps, and so does
every move `generate_moves` returns. -/
theorem capture_chains_capped_at_twelve (b : Board) (p : Int) :
    (∀ m ∈ capture_phase b p, m.count ≤ 12) ∧
    (∀ m ∈ generate_moves b p, m.count ≤ 12) := by
  have hc := capture_phase_inv b p
  constructor
  · exact fun m hm => (hc.2 m hm).2
  · intro m hm
    unfold generate_moves at hm
    dsimp only at hm
    split at hm
    · exact (hc.2 m (List.mem_filter.mp hm).1).2
    · rw [foldl_push_back_eq_take _ [] (by simp)] at hm
      simp only [List.nil_append] at hm
      obtain ⟨st, hms, _⟩ := (mem_quiet_phase b p m).mp (List.take_subset _ _ hm)
      simp [hms, Move.count]

theorem capture_chains_capped_at_twelve_witness :
    (⟨[⟨4, 3, 2, 1⟩, ⟨2, 1, 0, 3⟩], 0⟩ : Move) ∈ capture_phase chain_board WHITE_MAN ∧
    (⟨[⟨4, 3, 2, 1⟩, ⟨2, 1, 0, 3⟩], 0⟩ : Move).count ≤ 12 :=
  ⟨by decide,
   (capture_chains_capped_at_twelve chain_board WHITE_MAN).1 _ (by decide)⟩

/-! ## Claim C10 -/

/-- C10: `MoveList::push_back` leaves a full 128-entry list unchanged;
consequently every list `generate_moves` produces has at most 128
moves (later candidates are silently dropped), and every returned move
has between 1 and 12 steps. -/
theorem movelist_capacity_and_step_bounds (l : List Move) (m : Move) (b : Board) (p : Int) :
    (l.length = 128 → push_back l m = l) ∧
    (generate_moves b p).length ≤ 128 ∧
    (∀ mv ∈ generate_moves b p, 1 ≤ mv.count ∧ mv.count ≤ 12) := by
  have hc := capture_phase_inv b p
  refine ⟨?_, ?_, ?_⟩
  · intro h
    unfold push_back
    rw [if_neg (by omega)]
  · unfold generate_moves
    dsimp only
    split
    · exact le_trans (List.length_filter_le _ _) hc.1
    · rw [foldl_push_back_eq_take _ [] (by simp)]
      simp [List.length_take]
  · intro mv hmv
    unfold generate_moves at hmv
    dsimp only at hmv
    split at hmv
    · exact hc.2 mv (List.mem_filter.mp hmv).1
    · rw [foldl_push_back_eq_take _ [] (by simp)] at hmv
      simp only [List.nil_append] at hmv
      obtain ⟨st, hms, _⟩ := (mem_quiet_phase b p mv).mp (List.take_subset _ _ hmv)
      simp [hms, Move.count]

theorem movelist_capacity_and_step_bounds_witness :
    push_back (List.replicate 128 empty_move) empty_move = List.replicate 128 empty_move ∧
    (generate_moves one_move_board WHITE_MAN).length ≤ 128 ∧
    (1 ≤ (⟨[⟨5, 0, 4, 1⟩], 0⟩ : Move).count ∧ (⟨[⟨5, 0, 4, 1⟩], 0⟩ : Move).count ≤ 12) :=
  ⟨(movelist_capacity_and_step_bounds (List.replicate 128 empty_move) empty_move
      one_move_board WHITE_MAN).1 (by decide),
   (movelist_capacity_and_step_bounds (List.replicate 128 empty_move) empty_move
      one_move_board WHITE_MAN).2.1,
   (movelist_capacity_and_step_bounds (List.replicate 128 empty_move) empty_move
      one_move_board WHITE_MAN).2.2 _ (by decide)⟩

/-! ## Lemmas: the capture walk of `apply_move` -/

theorem bsetI_same (b : Board) (i : Int) (h0 : 0 ≤ i) (h64 : i < 64) :
    (bsetI b i 0).getD i.toNat 0 = 0 := by
  unfold bsetI
  rw [if_pos ⟨h0, h64⟩]
  rcases lt_or_le i.toNat b.length with h | h
  · rw [List.getD_eq_getElem?_getD, List.getElem?_set_self h]
    rfl
  · rw [List.set_eq_of_length_le h]
    exact List.getD_eq_default _ _ h

theorem bsetI_other (b : Board) (i v : Int) (q : Nat) (hq : (q : Int) ≠ i) :
    (bsetI b i v).getD q 0 = b.getD q 0 := by
  unfold bsetI
  split
  · next hin =>
    rw [List.getD_eq_getElem?_getD, List.getElem?_set_ne (by omega),
      ← List.getD_eq_getElem?_getD]
  · rfl

theorem bgetI_bsetI_other (b : Board) (i v j : Int) (hne : j ≠ i) :
    bgetI (bsetI b i v) j = bgetI b j := by
  unfold bgetI
  split
  · next hj => rw [bsetI_other b i v j.toNat (by omega)]
  · rfl

theorem wpos_linear (r c dr dc : Int) (t : Nat) :
    wpos r c dr dc t = r * 8 + c + (t : Int) * (8 * dr + dc) := by
  unfold wpos; ring

theorem wpos_shift (r c dr dc : Int) (t : Nat) :
    wpos (r + dr) (c + dc) dr dc t = wpos r c dr dc (t + 1) := by
  unfold wpos; push_cast; ring

theorem wpos_zero (r c dr dc : Int) : wpos r c dr dc 0 = r * 8 + c := by
  unfold wpos; push_cast; ring

theorem wpos_inj (r c dr dc : Int) (hstep : 8 * dr + dc ≠ 0) (s t : Nat)
    (h : wpos r c dr dc s = wpos r c dr dc t) : s = t := by
  rw [wpos_linear, wpos_linear] at h
  have h2 : (s : Int) * (8 * dr + dc) = (t : Int) * (8 * dr + dc) := by linarith
  have h3 := mul_right_cancel₀ hstep h2
  exact_mod_cast h3

/-- Full characterization of the capture walk loop: every visited
square ends up `EMPTY`, every other square is untouched, and the
captured-piece accumulator ends as the last non-empty square met (read
from the original board), defaulting to its incoming value. -/
theorem walk_go_spec (dr dc : Int) (hstep : 8 * dr + dc ≠ 0) :
    ∀ (fuel : Nat) (r c : Int) (b : Board) (cap : Int),
    (∀ t : Nat, t < fuel → 0 ≤ wpos r c dr dc t ∧ wpos r c dr dc t < 64) →
    (∀ q : Nat, q < 64 →
      (walk_go dr dc fuel r c (b, cap)).1.getD q 0 =
        if (q : Int) ∈ (List.range fuel).map (wpos r c dr dc) then 0 else b.getD q 0) ∧
    (walk_go dr dc fuel r c (b, cap)).2 =
      (List.range fuel).foldl
        (fun a t => if bgetI b (wpos r c dr dc t) ≠ EMPTY
          then bgetI b (wpos r c dr dc t) else a) cap := by
  intro fuel
  induction fuel with
  | zero =>
    intro r c b cap _
    constructor
    · intro q _; simp [walk_go]
    · simp [walk_go]
  | succ fuel ih =>
    intro r c b cap hp
    have hpos0 := hp 0 (Nat.succ_pos fuel)
    have hp00 : wpos r c dr dc 0 = r * 8 + c := wpos_zero r c dr dc
    have hshift : ∀ t : Nat, wpos (r + dr) (c + dc) dr dc t = wpos r c dr dc (t + 1) :=
      wpos_shift r c dr dc
    have hp' : ∀ t : Nat, t < fuel →
        0 ≤ wpos (r + dr) (c + dc) dr dc t ∧ wpos (r + dr) (c + dc) dr dc t < 64 := by
      intro t ht
      rw [hshift t]
      exact hp (t + 1) (by omega)
    have hmap : (List.range (fuel + 1)).map (wpos r c dr dc) =
        wpos r c dr dc 0 :: (List.range fuel).map (wpos (r + dr) (c + dc) dr dc) := by
      rw [List.range_succ_eq_map, List.map_cons, List.map_map]
      congr 1
      apply List.map_congr_left
      intro t _
      simp only [Function.comp_apply, hshift t]
    have hfold : ∀ (F : Int → Nat → Int) (a0 : Int),
        (List.range (fuel + 1)).foldl F a0 =
        (List.range fuel).foldl (fun a t => F a (t + 1)) (F a0 0) := by
      intro F a0
      rw [List.range_succ_eq_map, List.foldl_cons, List.foldl_map]
    rw [walk_go]
    dsimp only
    by_cases hbe : bgetI b (r * 8 + c) ≠ EMPTY
    · rw [if_pos hbe]
      have hb2 := ih (r + dr) (c + dc) (bsetI b (r * 8 + c) EMPTY) (bgetI b (r * 8 + c)) hp'
      constructor
      · intro q hq
        rw [hb2.1 q hq, hmap]
        simp only [List.mem_cons]
        by_cases hq0 : (q : Int) = wpos r c dr dc 0
        · rw [if_pos (Or.inl hq0)]
          by_cases hqt : (q : Int) ∈ (List.range fuel).map (wpos (r + dr) (c + dc) dr dc)
          · rw [if_pos hqt]
          · rw [if_neg hqt]
            have hqi : q = (r * 8 + c).toNat := by omega
            rw [hqi]
            exact bsetI_same b (r * 8 + c) (by omega) (by omega)
        · have hcond : ¬((q : Int) = wpos r c dr dc 0 ∨
              (q : Int) ∈ (List.range fuel).map (wpos (r + dr) (c + dc) dr dc)) ↔
              ¬((q : Int) ∈ (List.range fuel).map (wpos (r + dr) (c + dc) dr dc)) := by
            constructor
            · intro h; intro hc; exact h (Or.inr hc)
            · intro h; intro hc; rcases hc with hc | hc; exacts [hq0 hc, h hc]
          by_cases hqt : (q : Int) ∈ (List.range fuel).map (wpos (r + dr) (c + dc) dr dc)
          · rw [if_pos hqt, if_pos (Or.inr hqt)]
          · rw [if_neg hqt, if_neg (by tauto)]
            exact bsetI_other b (r * 8 + c) EMPTY q (by omega)
      · rw [hb2.2, hfold]
        have hF0 : (if bgetI b (wpos r c dr dc 0) ≠ EMPTY
            then bgetI b (wpos r c dr dc 0) else cap) = bgetI b (r * 8 + c) := by
          rw [hp00, if_pos hbe]
        rw [hF0]
        apply List.foldl_ext
        intro a t ht
        rw [List.mem_range] at ht
        have hne0 : wpos r c dr dc (t + 1) ≠ wpos r c dr dc 0 := by
          intro hcon
          exact absurd (wpos_inj r c dr dc hstep _ _ hcon) (by omega)
        rw [hshift t, hp00] at *
        rw [bgetI_bsetI_other b (r * 8 + c) EMPTY (wpos r c dr dc (t + 1))
          (by rw [← hp00]; exact hne0)]
    · rw [if_neg hbe]
      push_neg at hbe
      have hb2 := ih (r + dr) (c + dc) b cap hp'
      constructor
      · intro q hq
        rw [hb2.1 q hq, hmap]
        simp only [List.mem_cons]
        by_cases hq0 : (q : Int) = wpos r c dr dc 0
        · rw [if_pos (Or.inl hq0)]
          by_cases hqt : (q : Int) ∈ (List.range fuel).map (wpos (r + dr) (c + dc) dr dc)
          · rw [if_pos hqt]
          · rw [if_neg hqt]
            have hbq : bgetI b (r * 8 + c) = b.getD q 0 := by
              unfold bgetI
              rw [if_pos ⟨by omega, by omega⟩]
              congr 1
              omega
            rw [← hbq, hbe]
            rfl
        · by_cases hqt : (q : Int) ∈ (List.range fuel).map (wpos (r + dr) (c + dc) dr dc)
          · rw [if_pos hqt, if_pos (Or.inr hqt)]
          · rw [if_neg hqt, if_neg (by tauto)]
      · rw [hb2.2, hfold]
        have hF0 : (if bgetI b (wpos r c dr dc 0) ≠ EMPTY
            then bgetI b (wpos r c dr dc 0) else cap) = cap := by
          rw [hp00, if_neg (by simp [hbe])]
        rw [hF0]
        apply List.foldl_ext
        intro a t _
        rw [hshift t]

/-- Characterization of one step's capture walk on a true diagonal with
on-board endpoints: the squares at distances 1 .. |Δr|-1 (strictly
between source and destination) all end `EMPTY`, no other square
changes, and the captured accumulator becomes the last non-empty such
square of the input board (keeping its incoming value if all were
empty). -/
theorem capture_walk_spec (b : Board) (cap : Int) (st : Step)
    (hv1 : is_valid st.r1 st.c1 = true) (hv2 : is_valid st.r2 st.c2 = true)
    (hdiag : (st.r2 - st.r1).natAbs = (st.c2 - st.c1).natAbs) (hne : st.r1 ≠ st.r2) :
    (∀ q : Nat, q < 64 →
      (capture_walk (b, cap) st).1.getD q 0 =
        if (q : Int) ∈ (List.range ((st.r2 - st.r1).natAbs - 1)).map
            (fun t => ray_sq st (t + 1))
        then EMPTY else b.getD q 0) ∧
    (capture_walk (b, cap) st).2 =
      (List.range ((st.r2 - st.r1).natAbs - 1)).foldl
        (fun a t => if bgetI b (ray_sq st (t + 1)) ≠ EMPTY
          then bgetI b (ray_sq st (t + 1)) else a) cap := by
  have hv1' : (0 ≤ st.r1 ∧ st.r1 < 8) ∧ 0 ≤ st.c1 ∧ st.c1 < 8 := by
    unfold is_valid at hv1
    simp only [Bool.and_eq_true, decide_eq_true_eq] at hv1
    tauto
  have hv2' : (0 ≤ st.r2 ∧ st.r2 < 8) ∧ 0 ≤ st.c2 ∧ st.c2 < 8 := by
    unfold is_valid at hv2
    simp only [Bool.and_eq_true, decide_eq_true_eq] at hv2
    tauto
  have hdr : dirR st = 1 ∨ dirR st = -1 := by unfold dirR; split <;> simp
  have hdc : dirC st = 1 ∨ dirC st = -1 := by unfold dirC; split <;> simp
  have hstep : 8 * dirR st + dirC st ≠ 0 := by
    rcases hdr with h | h <;> rcases hdc with h' | h' <;> rw [h, h'] <;> omega
  have hr2 : st.r2 = st.r1 + ((st.r2 - st.r1).natAbs : Int) * dirR st := by
    unfold dirR; split <;> omega
  have hc2 : st.c2 = st.c1 + ((st.r2 - st.r1).natAbs : Int) * dirC st := by
    unfold dirC; split <;> omega
  have hwshift : ∀ t : Nat,
      wpos (st.r1 + dirR st) (st.c1 + dirC st) (dirR st) (dirC st) t = ray_sq st (t + 1) := by
    intro t; unfold wpos ray_sq; push_cast; ring
  have hbounds : ∀ t : Nat, t < (st.r2 - st.r1).natAbs - 1 →
      0 ≤ wpos (st.r1 + dirR st) (st.c1 + dirC st) (dirR st) (dirC st) t ∧
      wpos (st.r1 + dirR st) (st.c1 + dirC st) (dirR st) (dirC st) t < 64 := by
    intro t ht
    rw [hwshift t]
    unfold ray_sq
    rcases hdr with h | h <;> rcases hdc with h' | h' <;>
      rw [h] at hr2 ⊢ <;> rw [h'] at hc2 ⊢ <;> exact ⟨by omega, by omega⟩
  have hw := walk_go_spec (dirR st) (dirC st) hstep ((st.r2 - st.r1).natAbs - 1)
    (st.r1 + dirR st) (st.c1 + dirC st) b cap hbounds
  have hmapeq : (List.range ((st.r2 - st.r1).natAbs - 1)).map
      (wpos (st.r1 + dirR st) (st.c1 + dirC st) (dirR st) (dirC st)) =
      (List.range ((st.r2 - st.r1).natAbs - 1)).map (fun t => ray_sq st (t + 1)) :=
    List.map_congr_left (fun t _ => hwshift t)
  unfold capture_walk
  constructor
  · intro q hq
    rw [hw.1 q hq, hmapeq]
    rfl
  · rw [hw.2]
    apply List.foldl_ext
    intro a t _
    rw [hwshift t]

/-! ## Claim C2 -/

/-- C2 (amended): `apply_move` runs the capture walks exactly when the
whole move spans at least two rows (|r2-r1| >= 2 between the first
step's source and the last step's destination) or has more than one
step - a quiet move performs only the source-clear, placement and
promotion, leaving the captured out-parameter untouched.  For each
walked step, every non-empty square the walk meets strictly between
that step's source and destination is cleared (possibly several in one
step), and the captured out-parameter records the last non-empty square
met, not the first. -/
theorem apply_move_capture_condition_and_walk :
    (∀ (b : Board) (m : Move) (p c0 : Int),
      ¬(2 ≤ ((m.steps.headD step0).r1 - (m.steps.getLastD step0).r2).natAbs ∨ 1 < m.count) →
      apply_move b m p c0 =
        (apply_promote
          (bsetI (bsetI b (apply_src m) EMPTY) (apply_dst m) (bgetI b (apply_src m))) m
          (bgetI b (apply_src m)), c0)) ∧
    (∀ (b : Board) (m : Move) (p c0 : Int),
      (2 ≤ ((m.steps.headD step0).r1 - (m.steps.getLastD step0).r2).natAbs ∨ 1 < m.count) →
      apply_move b m p c0 =
        (apply_promote
          (m.steps.foldl capture_walk
            (bsetI (bsetI b (apply_src m) EMPTY) (apply_dst m) (bgetI b (apply_src m)), c0)).1 m
          (bgetI b (apply_src m)),
         (m.steps.foldl capture_walk
            (bsetI (bsetI b (apply_src m) EMPTY) (apply_dst m) (bgetI b (apply_src m)), c0)).2)) ∧
    (∀ (b : Board) (cap : Int) (st : Step),
      is_valid st.r1 st.c1 = true → is_valid st.r2 st.c2 = true →
      (st.r2 - st.r1).natAbs = (st.c2 - st.c1).natAbs → st.r1 ≠ st.r2 →
      (∀ q : Nat, q < 64 →
        (capture_walk (b, cap) st).1.getD q 0 =
          if (q : Int) ∈ (List.range ((st.r2 - st.r1).natAbs - 1)).map
              (fun t => ray_sq st (t + 1))
          then EMPTY else b.getD q 0) ∧
      (capture_walk (b, cap) st).2 =
        (List.range ((st.r2 - st.r1).natAbs - 1)).foldl
          (fun a t => if bgetI b (ray_sq st (t + 1)) ≠ EMPTY
            then bgetI b (ray_sq st (t + 1)) else a) cap) := by
  refine ⟨?_, ?_, fun b cap st h1 h2 h3 h4 => capture_walk_spec b cap st h1 h2 h3 h4⟩
  · intro b m p c0 h
    unfold apply_move
    dsimp only
    rw [if_neg h]
  · intro b m p c0 h
    unfold apply_move
    dsimp only
    rw [if_pos h]

/-- Board refuting the one-piece-per-step reading: a white king on
(0,0), a black man on (1,1) and a black king on (2,2). -/
def double_clear_board : Board :=
  bsetI (bsetI (bsetI empty_board 0 WHITE_KING) 9 BLACK_MAN) 18 BLACK_KING

/-- C2 counterexample: applying the single step (0,0)->(3,3) on
`double_clear_board` clears BOTH intermediate pieces - (1,1) and (2,2) -
in one step, and records the LAST of them (the black king on (2,2)) as
the captured piece, not the first non-empty square met. -/
theorem apply_move_double_clear_counterexample :
    double_clear_board.getD 9 0 = BLACK_MAN ∧
    double_clear_board.getD 18 0 = BLACK_KING ∧
    (apply_move double_clear_board ⟨[⟨0, 0, 3, 3⟩], 0⟩ WHITE_MAN 0).1.getD 9 0 = EMPTY ∧
    (apply_move double_clear_board ⟨[⟨0, 0, 3, 3⟩], 0⟩ WHITE_MAN 0).1.getD 18 0 = EMPTY ∧
    (apply_move double_clear_board ⟨[⟨0, 0, 3, 3⟩], 0⟩ WHITE_MAN 0).2 = BLACK_KING := by
  refine ⟨by decide, by decide, by decide, by decide, by decide⟩

theorem apply_move_capture_condition_and_walk_witness :
    (¬(2 ≤ (((⟨[⟨5, 0, 4, 1⟩], 0⟩ : Move).steps.headD step0).r1 -
        ((⟨[⟨5, 0, 4, 1⟩], 0⟩ : Move).steps.getLastD step0).r2).natAbs ∨
      1 < (⟨[⟨5, 0, 4, 1⟩], 0⟩ : Move).count)) ∧
    apply_move one_move_board ⟨[⟨5, 0, 4, 1⟩], 0⟩ WHITE_MAN 0 =
      (apply_promote
        (bsetI (bsetI one_move_board (apply_src ⟨[⟨5, 0, 4, 1⟩], 0⟩) EMPTY)
          (apply_dst ⟨[⟨5, 0, 4, 1⟩], 0⟩) (bgetI one_move_board (apply_src ⟨[⟨5, 0, 4, 1⟩], 0⟩)))
        ⟨[⟨5, 0, 4, 1⟩], 0⟩ (bgetI one_move_board (apply_src ⟨[⟨5, 0, 4, 1⟩], 0⟩)), 0) ∧
    (capture_walk (cap_board, 0) ⟨4, 3, 2, 1⟩).2 =
      (List.range ((((2 : Int) - 4).natAbs) - 1)).foldl
        (fun a t => if bgetI cap_board (ray_sq ⟨4, 3, 2, 1⟩ (t + 1)) ≠ EMPTY
          then bgetI cap_board (ray_sq ⟨4, 3, 2, 1⟩ (t + 1)) else a) 0 :=
  ⟨by decide,
   apply_move_capture_condition_and_walk.1 one_move_board ⟨[⟨5, 0, 4, 1⟩], 0⟩ WHITE_MAN 0
     (by decide),
   (apply_move_capture_condition_and_walk.2.2 cap_board 0 ⟨4, 3, 2, 1⟩
     (by decide) (by decide) (by decide) (by decide)).2⟩

/-! ## Concrete environments and states for witnesses -/

/-- Environment with an all-zero Zobrist table and a clock that never
expires. -/
def env0 : Env := ⟨fun _ _ => 0, 0, fun _ => false⟩

/-- A fresh search state. -/
def state0 : SearchState :=
  ⟨fun _ => tt_entry0, fun _ _ => empty_move, fun _ _ _ => 0, 5, false⟩

/-- `state0` with the stop flag raised. -/
def state_stop : SearchState := { state0 with stop := true }

/-- `state0` with an exact depth-10 score-50 entry stored for hash 0. -/
def state_tt : SearchState :=
  { state0 with tt := fun _ => ⟨0, 50, 10, TT_EXACT, empty_move⟩ }

/-! ## Claim C3 -/

/-- C3: `tt_probe` returns a cutoff iff the stored key matches, the
stored depth is at least the probe depth, and the flag/window test
passes on the mate-shifted stored score; and in `alpha_beta` a returned
cutoff is acted on only when `ply > 0` - at ply 0 the search always
falls through to the move loop. -/
theorem tt_probe_contract_and_root_gating :
    (∀ (tt : Nat → TTEntry) (key : Nat) (depth alpha beta : Int) (m0 : Move),
      ((tt_probe tt key depth alpha beta m0).1.isSome = true ↔
        ((tt (key % TT_SIZE)).key = key ∧ depth ≤ (tt (key % TT_SIZE)).depth ∧
         ((tt (key % TT_SIZE)).flag = TT_EXACT ∨
          ((tt (key % TT_SIZE)).flag = TT_ALPHA ∧
            tt_shift (tt (key % TT_SIZE)).score ≤ alpha) ∨
          ((tt (key % TT_SIZE)).flag = TT_BETA ∧
            beta ≤ tt_shift (tt (key % TT_SIZE)).score))))) ∧
    (∀ (env : Env) (fuel : Nat) (board : Board) (depth alpha beta player : Int)
        (ply : Nat) (dn : Bool) (st : SearchState),
      (clock_tick env.time_up st).stop = false →
      (generate_moves board player).length ≠ 0 →
      ¬(depth ≤ 0 ∧ (noisy_flag board (generate_moves board player) = false ∨ depth < -12)) →
      (∀ s : Int,
        (tt_probe (clock_tick env.time_up st).tt
          (compute_hash env.zob env.zb board player) depth alpha beta empty_move).1 = some s →
        0 < ply →
        alpha_beta env (fuel+1) board depth alpha beta player ply dn st =
          (s, clock_tick env.time_up st)) ∧
      (ply = 0 →
        alpha_beta env (fuel+1) board depth alpha beta player ply dn st =
          ab_loop (alpha_beta env fuel) board depth player ply
            (cf_flag (generate_moves board player))
            (if player = WHITE_MAN ∨ player = WHITE_KING then BLACK_MAN else WHITE_MAN)
            (tt_probe (clock_tick env.time_up st).tt
              (compute_hash env.zob env.zb board player) depth alpha beta empty_move).2
            (compute_hash env.zob env.zb board player)
            (generate_moves board player).length 0 (generate_moves board player)
            alpha beta (-INF) ((generate_moves board player).headD empty_move) TT_ALPHA
            (clock_tick env.time_up st))) := by
  constructor
  · intro tt key depth alpha beta m0
    unfold tt_probe
    dsimp only
    by_cases h1 : (tt (key % TT_SIZE)).key = key
    · rw [if_pos h1]
      by_cases h2 : depth ≤ (tt (key % TT_SIZE)).depth
      · rw [if_pos h2]
        by_cases h3 : (tt (key % TT_SIZE)).flag = TT_EXACT
        · rw [if_pos h3]
          simp [h1, h2, h3]
        · rw [if_neg h3]
          by_cases h4 : (tt (key % TT_SIZE)).flag = TT_ALPHA ∧
              tt_shift (tt (key % TT_SIZE)).score ≤ alpha
          · rw [if_pos h4]
            simp [h1, h2, h4]
          · rw [if_neg h4]
            by_cases h5 : (tt (key % TT_SIZE)).flag = TT_BETA ∧
                beta ≤ tt_shift (tt (key % TT_SIZE)).score
            · rw [if_pos h5]
              simp [h1, h2, h5]
            · rw [if_neg h5]
              simp [h3, h4, h5]
      · rw [if_neg h2]
        simp [h2]
    · rw [if_neg h1]
      simp [h1]
  · intro env fuel board depth alpha beta player ply dn st hstop hmv hleaf
    constructor
    · intro s hsome hply
      rw [alpha_beta]
      dsimp only
      rw [if_neg (by rw [hstop]; exact Bool.false_ne_true), if_neg hmv, if_neg hleaf,
        if_pos ⟨by rw [hsome]; rfl, hply⟩, hsome]
      rfl
    · intro hply0
      subst hply0
      rw [alpha_beta]
      dsimp only
      rw [if_neg (by rw [hstop]; exact Bool.false_ne_true), if_neg hmv, if_neg hleaf,
        if_neg (by rintro ⟨-, h0⟩; omega)]

theorem tt_probe_contract_and_root_gating_witness :
    (tt_probe state_tt.tt 0 3 (-5) 5 empty_move).1.isSome = true ∧
    (clock_tick env0.time_up state_tt).stop = false ∧
    alpha_beta env0 5 one_move_board 3 (-5) 5 WHITE_MAN 1 true state_tt =
      (50, clock_tick env0.time_up state_tt) :=
  ⟨(tt_probe_contract_and_root_gating.1 state_tt.tt 0 3 (-5) 5 empty_move).mpr
     (by refine ⟨by decide, by decide, Or.inl (by decide)⟩),
   by decide,
   (tt_probe_contract_and_root_gating.2 env0 4 one_move_board 3 (-5) 5 WHITE_MAN 1 true
      state_tt (by decide) (by decide) (by decide)).1 50 (by decide) (by omega)⟩

/-! ## Claim C5 -/

/-- C5: once the stop flag is set, a call to `alpha_beta` returns 0
immediately - the only state change is the node-counter increment from
the entry bookkeeping (whose periodic clock check can only keep the
flag set); no move generation, TT access or recursion affects the
result or the state. -/
theorem alpha_beta_stop_flag_short_circuit (env : Env) (fuel : Nat) (board : Board)
    (depth alpha beta player : Int) (ply : Nat) (dn : Bool) (st : SearchState)
    (h : st.stop = true) :
    alpha_beta env (fuel+1) board depth alpha beta player ply dn st =
      (0, { st with nodes := st.nodes + 1 }) := by
  have h1 : clock_tick env.time_up st = { st with nodes := st.nodes + 1 } := by
    unfold clock_tick
    rw [h]
    simp [h]
  rw [alpha_beta]
  dsimp only
  rw [h1, if_pos (show ({ st with nodes := st.nodes + 1 } : SearchState).stop = true from h)]

theorem alpha_beta_stop_flag_short_circuit_witness :
    state_stop.stop = true ∧
    alpha_beta env0 3 chain_board 4 (-INF) INF WHITE_MAN 2 true state_stop =
      (0, { state_stop with nodes := state_stop.nodes + 1 }) :=
  ⟨rfl,
   alpha_beta_stop_flag_short_circuit env0 2 chain_board 4 (-INF) INF WHITE_MAN 2 true
     state_stop rfl⟩

/-! ## Claim C6 -/

/-- C6: if the side to move has no legal root moves, `get_best_move`
writes count 0 and score `-MATE` to the result and returns without
searching - the remaining result fields and the entire search state are
untouched. -/
theorem get_best_move_no_moves (env : Env) (fuel : Nat) (board : Board) (player : Int)
    (max_depth : Nat) (st : SearchState) (res0 : MoveResult)
    (h : (generate_moves board player).length = 0) :
    get_best_move env fuel board player max_depth st res0 =
      ({ res0 with count := 0, score := -MATE }, st) := by
  unfold get_best_move
  dsimp only
  rw [if_pos h]

theorem get_best_move_no_moves_witness :
    (generate_moves empty_board WHITE_MAN).length = 0 ∧
    get_best_move env0 7 empty_board WHITE_MAN 9 state0 ⟨[], 3, 7, 9, 11⟩ =
      ({ (⟨[], 3, 7, 9, 11⟩ : MoveResult) with count := 0, score := -MATE }, state0) :=
  ⟨by decide,
   get_best_move_no_moves env0 7 empty_board WHITE_MAN 9 state0 ⟨[], 3, 7, 9, 11⟩ (by decide)⟩

/-! ## Claim C7 -/

/-- C7: with exactly one legal root move, `get_best_move` returns that
move immediately - no iterative deepening runs, and the result reports
depth 1, score 0 and node count 0, with the search state untouched. -/
theorem get_best_move_single_move (env : Env) (fuel : Nat) (board : Board) (player : Int)
    (max_depth : Nat) (st : SearchState) (res0 : MoveResult)
    (h : (generate_moves board player).length = 1) :
    get_best_move env fuel board player max_depth st res0 =
      ({ res0 with
          steps := ((generate_moves board player).headD empty_move).steps,
          count := ((generate_moves board player).headD empty_move).count,
          score := 0, depth := 1, nodes := 0 }, st) := by
  unfold get_best_move
  dsimp only
  rw [if_neg (by omega), if_pos h]

theorem get_best_move_single_move_witness :
    (generate_moves one_move_board WHITE_MAN).length = 1 ∧
    get_best_move env0 7 one_move_board WHITE_MAN 9 state0 ⟨[], 3, 7, 9, 11⟩ =
      ({ (⟨[], 3, 7, 9, 11⟩ : MoveResult) with
          steps := ((generate_moves one_move_board WHITE_MAN).headD empty_move).steps,
          count := ((generate_moves one_move_board WHITE_MAN).headD empty_move).count,
          score := 0, depth := 1, nodes := 0 }, state0) :=
  ⟨by decide,
   get_best_move_single_move env0 7 one_move_board WHITE_MAN 9 state0 ⟨[], 3, 7, 9, 11⟩
     (by decide)⟩

/-! ## Claim C8 -/

/-- C8: for a move that is not the TT best move, not a long capture,
not a promotion and not a killer at the current ply,
`score_move_ordering` returns `history_table[0][from][to]` - the read
hard-codes side index 0 (the function does not even receive the side to
move) - while the beta-cutoff update writes the row indexed by the
actual side: white adds `depth*depth` to row 0, and black writes only
row 1, leaving row 0 (the row the ordering reads) entirely unchanged. -/
theorem history_read_side_zero_write_side_indexed :
    (∀ (killers : Nat → Nat → Move) (history : Nat → Int → Int → Int)
        (m tt_best : Move) (ply : Nat),
      move_eq m tt_best = false →
      ¬(0 < m.count ∧
        2 < ((m.steps.headD step0).r1 - (m.steps.getLastD step0).r2).natAbs) →
      ¬((m.steps.getLastD step0).r2 = 0 ∨ (m.steps.getLastD step0).r2 = 7) →
      move_eq m (killers ply 0) = false →
      move_eq m (killers ply 1) = false →
      score_move_ordering killers history m tt_best ply =
        history 0 ((m.steps.headD step0).r1 * 8 + (m.steps.headD step0).c1)
          ((m.steps.getLastD step0).r2 * 8 + (m.steps.getLastD step0).c2)) ∧
    (∀ (st : SearchState) (cf : Bool) (m : Move) (ply : Nat) (player depth : Int),
      (player = WHITE_MAN ∨ player = WHITE_KING) → cf = false → m.count = 1 →
      (cutoff_update st cf m ply player depth).history 0
          ((m.steps.headD step0).r1 * 8 + (m.steps.headD step0).c1)
          ((m.steps.headD step0).r2 * 8 + (m.steps.headD step0).c2) =
        st.history 0 ((m.steps.headD step0).r1 * 8 + (m.steps.headD step0).c1)
          ((m.steps.headD step0).r2 * 8 + (m.steps.headD step0).c2) + depth * depth) ∧
    (∀ (st : SearchState) (cf : Bool) (m : Move) (ply : Nat) (player depth : Int),
      ¬(player = WHITE_MAN ∨ player = WHITE_KING) →
      ∀ (f t : Int), (cutoff_update st cf m ply player depth).history 0 f t =
        st.history 0 f t) := by
  refine ⟨?_, ?_, ?_⟩
  · intro killers history m tt_best ply h1 h2 h3 h4 h5
    unfold score_move_ordering
    dsimp only
    rw [if_neg (by rw [h1]; exact Bool.false_ne_true), if_neg h2, if_neg h3,
      if_neg (by rw [h4]; exact Bool.false_ne_true),
      if_neg (by rw [h5]; exact Bool.false_ne_true)]
  · intro st cf m ply player depth hw hcf hcount
    unfold cutoff_update
    rw [if_pos ⟨by rw [hcf]; exact Bool.false_ne_true, hcount⟩]
    dsimp only
    rw [if_pos ⟨by rw [if_pos hw], rfl, rfl⟩]
  · intro st cf m ply player depth hb f t
    unfold cutoff_update
    split
    · dsimp only
      rw [if_neg (by rintro ⟨h0, -⟩; omega)]
    · rfl

theorem history_read_side_zero_write_side_indexed_witness :
    move_eq ⟨[⟨4, 4, 3, 3⟩], 0⟩ empty_move = false ∧
    score_move_ordering (fun _ _ => empty_move) (fun _ _ _ => 7)
        ⟨[⟨4, 4, 3, 3⟩], 0⟩ empty_move 0 = (fun (_ : Nat) (_ _ : Int) => (7 : Int)) 0 36 27 ∧
    (cutoff_update state0 false ⟨[⟨4, 4, 3, 3⟩], 0⟩ 0 WHITE_MAN 5).history 0 36 27 =
      state0.history 0 36 27 + 5 * 5 ∧
    (cutoff_update state0 false ⟨[⟨4, 4, 3, 3⟩], 0⟩ 0 BLACK_MAN 5).history 0 36 27 =
      state0.history 0 36 27 :=
  ⟨by decide,
   history_read_side_zero_write_side_indexed.1 (fun _ _ => empty_move) (fun _ _ _ => 7)
     ⟨[⟨4, 4, 3, 3⟩], 0⟩ empty_move 0 (by decide) (by decide) (by decide) (by decide)
     (by decide),
   history_read_side_zero_write_side_indexed.2.1 state0 false ⟨[⟨4, 4, 3, 3⟩], 0⟩ 0
     WHITE_MAN 5 (by left; rfl) rfl (by decide),
   history_read_side_zero_write_side_indexed.2.2 state0 false ⟨[⟨4, 4, 3, 3⟩], 0⟩ 0
     BLACK_MAN 5 (by decide) 36 27⟩

/-! ## Claim C9 -/

/-- C9: `Move::operator==` compares only the step count, the first
step's source and the last step's destination, so two distinct chains
with equal length, origin and final landing square compare equal; in
`score_move_ordering` such an alias of the TT best move scores
2000000, and an alias of the first killer (when the earlier tests
fail) scores 900000. -/
theorem move_eq_endpoints_alias :
    (∀ m1 m2 : Move, m1.count = m2.count → 0 < m1.count →
      (m1.steps.headD step0).r1 = (m2.steps.headD step0).r1 →
      (m1.steps.headD step0).c1 = (m2.steps.headD step0).c1 →
      (m1.steps.getLastD step0).r2 = (m2.steps.getLastD step0).r2 →
      (m1.steps.getLastD step0).c2 = (m2.steps.getLastD step0).c2 →
      move_eq m1 m2 = true) ∧
    (∀ (killers : Nat → Nat → Move) (history : Nat → Int → Int → Int)
        (m tt_best : Move) (ply : Nat),
      move_eq m tt_best = true →
      score_move_ordering killers history m tt_best ply = 2000000) ∧
    (∀ (killers : Nat → Nat → Move) (history : Nat → Int → Int → Int)
        (m tt_best : Move) (ply : Nat),
      move_eq m tt_best = false →
      ¬(0 < m.count ∧
        2 < ((m.steps.headD step0).r1 - (m.steps.getLastD step0).r2).natAbs) →
      ¬((m.steps.getLastD step0).r2 = 0 ∨ (m.steps.getLastD step0).r2 = 7) →
      move_eq m (killers ply 0) = true →
      score_move_ordering killers history m tt_best ply = 900000) := by
  refine ⟨?_, ?_, ?_⟩
  · intro m1 m2 hc h0 hr1 hc1 hr2 hc2
    unfold move_eq
    rw [if_neg (by omega), if_neg (by omega)]
    simp only [Bool.and_eq_true, decide_eq_true_eq]
    exact ⟨⟨⟨hr1, hc1⟩, hr2⟩, hc2⟩
  · intro killers history m tt_best ply h
    unfold score_move_ordering
    rw [if_pos h]
  · intro killers history m tt_best ply h1 h2 h3 h4
    unfold score_move_ordering
    dsimp only
    rw [if_neg (by rw [h1]; exact Bool.false_ne_true), if_neg h2, if_neg h3, if_pos h4]

/-- Killer table holding the quiet step (4,4)->(3,3) as the first
killer at every ply (with a scratch score distinguishing it from other
`Move` values aliasing it). -/
def killersK : Nat → Nat → Move :=
  fun _ s => if s = 0 then ⟨[⟨4, 4, 3, 3⟩], 9⟩ else empty_move

theorem move_eq_endpoints_alias_witness :
    (⟨[⟨0, 0, 2, 2⟩, ⟨2, 2, 4, 4⟩], 0⟩ : Move) ≠ ⟨[⟨0, 0, 2, 0⟩, ⟨2, 0, 4, 4⟩], 0⟩ ∧
    move_eq ⟨[⟨0, 0, 2, 2⟩, ⟨2, 2, 4, 4⟩], 0⟩ ⟨[⟨0, 0, 2, 0⟩, ⟨2, 0, 4, 4⟩], 0⟩ = true ∧
    score_move_ordering killersK (fun _ _ _ => 0)
      ⟨[⟨0, 0, 2, 2⟩, ⟨2, 2, 4, 4⟩], 0⟩ ⟨[⟨0, 0, 2, 0⟩, ⟨2, 0, 4, 4⟩], 0⟩ 0 = 2000000 ∧
    (⟨[⟨4, 4, 3, 3⟩], 0⟩ : Move) ≠ killersK 0 0 ∧
    score_move_ordering killersK (fun _ _ _ => 0) ⟨[⟨4, 4, 3, 3⟩], 0⟩ empty_move 0 = 900000 :=
  ⟨by decide,
   move_eq_endpoints_alias.1 ⟨[⟨0, 0, 2, 2⟩, ⟨2, 2, 4, 4⟩], 0⟩ ⟨[⟨0, 0, 2, 0⟩, ⟨2, 0, 4, 4⟩], 0⟩
     rfl (by decide) rfl rfl rfl rfl,
   move_eq_endpoints_alias.2.1 killersK (fun _ _ _ => 0) ⟨[⟨0, 0, 2, 2⟩, ⟨2, 2, 4, 4⟩], 0⟩
     ⟨[⟨0, 0, 2, 0⟩, ⟨2, 0, 4, 4⟩], 0⟩ 0 (by decide),
   by decide,
   move_eq_endpoints_alias.2.2 killersK (fun _ _ _ => 0) ⟨[⟨4, 4, 3, 3⟩], 0⟩ empty_move 0
     (by decide) (by decide) (by decide) (by decide)⟩

end Waylon
